import Mathlib

/-!
Verification of the PyBOM core (`pybom/BOM.py`): the BOM graph builder
(`BOM.parse_parent_child`), the aggregation engine (`BOM.flat`, `BOM.QTY`,
`BOM.aggregate`), the purchasing summary (`BOM.summary` with its row helpers
`packages_to_buy` and `subtotal`), and the parts database (`PartsDB.get`).

The embedding is shallow: pandas DataFrames become association lists of rows,
Python dicts and `collections.Counter` become association lists with the
dict's insertion-order/overwrite semantics made explicit, and Python
exceptions become an `Except` error type whose constructors record which
exception class the interpreter would raise.
-/

namespace PyBOM

deriving instance DecidableEq for Except

/-- The Python exception classes that the modelled code can raise.
`attributeNone` is an `AttributeError` on `None` (e.g. `None.parent`,
`None.df`, `None.PN`); `attributeStr` is an `AttributeError` on a `str`
(e.g. `"P1".PN`); `treeError` and `loopError` are the `anytree` exceptions
raised when attaching the same node twice resp. creating a parent cycle;
`noRoot` and `multiRoot` stand for `Exception("No root BOM found")` and
`Exception("Singular root BOM not found")` in `parse_parent_child`;
`overflowError` is what `math.ceil` raises on an infinite float
("cannot convert float infinity to integer"). -/
inductive PyErr where
  | keyError
  | typeError
  | valueError
  | overflowError
  | attributeNone
  | attributeStr
  | treeError
  | loopError
  | noRoot
  | multiRoot
deriving DecidableEq, Repr

/-- One row of an assembly's input table: the only required columns are
`PN` and `QTY` (`BOM.__init__` docstring). Quantities use Python's exact
integer semantics (the spec: a fractional QTY is a caller error). -/
structure PRow where
  PN : String
  QTY : Int
deriving DecidableEq, Repr

/-- A cell value of the parts table as pandas hands it to the summary code:
a finite number (exact rational, standing for Python's int/float), the
float `NaN` (pandas' missing-value marker, `pd.isnull` is true on it), an
infinite float `±inf` (`neg` is its sign bit; numpy produces it when a
numpy scalar is divided by zero, which warns instead of raising;
`pd.isnull` is false on it), a Python `None` (kept by pandas only in
non-numeric object columns), or a string. -/
inductive Cell where
  | num (q : ℚ)
  | nan
  | inf (neg : Bool)
  | pynone
  | str (s : String)
deriving DecidableEq, Repr

/-- One row of the master parts list: the `PN` key plus the remaining
named columns in order. -/
structure PartRow where
  PN : String
  attrs : List (String × Cell)
deriving DecidableEq, Repr

/-! ## Counter and dict semantics

`collections.Counter` and `dict` preserve first-insertion order of keys;
`Counter.update` adds counts for an existing key in place, while a plain
dict write (`d[k] = v`, as performed by a dict comprehension) overwrites
the stored value. Both are modelled on association lists. -/

/-- `Counter.update({k: v})`: add `v` to the count stored at `k`, keeping
the key's original position, or append a fresh key at the end. -/
def cUpdate : List (String × Int) → String → Int → List (String × Int)
  | [], k, v => [(k, v)]
  | (k', v') :: rest, k, v =>
    if k' = k then (k', v' + v) :: rest else (k', v') :: cUpdate rest k v

/-- `Counter.__getitem__`: the count stored at `k`, `0` for an absent key. -/
def cGet : List (String × Int) → String → Int
  | [], _ => 0
  | (k', v') :: rest, k => if k' = k then v' else cGet rest k

/-- The keys of a counter/dict, in insertion order. -/
def keysOf (c : List (String × Int)) : List String := c.map Prod.fst

/-- Sum of all counts stored under key `k` (coincides with `cGet` when the
keys are distinct, which every real `Counter` guarantees). -/
def entriesSum (c : List (String × Int)) (k : String) : Int :=
  (c.map (fun kv => if kv.1 = k then kv.2 else 0)).sum

/-- Python dict assignment `d[k] = v` on a dict keyed by
`None`-or-`Item` (an `Item` is determined by its part number, so the key
type is `Option String`): overwrite in place or append a fresh key. -/
def dInsert : List (Option String × Int) → Option String → Int → List (Option String × Int)
  | [], k, v => [(k, v)]
  | (k', v') :: rest, k, v =>
    if k' = k then (k', v) :: rest else (k', v') :: dInsert rest k v

/-- Dict lookup `d[k]` / `d.get(k)` on the rekeyed aggregate. -/
def dGet (d : List (Option String × Int)) (k : Option String) : Option Int :=
  (d.find? (fun kv => kv.1 = k)).map Prod.snd

/-- The keys of an `Option`-keyed dict, in insertion order. -/
def keysO (d : List (Option String × Int)) : List (Option String) := d.map Prod.fst

/-- `PartsDB.get(PN)`: `self.parts.get(PN, None)`. `PartsDB.__init__`
builds exactly one `Item` object per part number appearing in the parts
table, so an `Item`'s identity is determined by its `PN`; the lookup
returns that unique item (modelled by its part number) or `None`. -/
def partsDB_get (db : List String) (pn : String) : Option String :=
  if pn ∈ db then some pn else none

/-- The dict comprehension at the end of `BOM.aggregate` when a parts
database is attached: `{ self.parts_db.get(k):v for k,v in parts.items() }`.
Unknown part numbers are sent to the single key `None`; a repeated key is
overwritten, not summed. -/
def rekey (db : List String) (c : List (String × Int)) : List (Option String × Int) :=
  c.foldl (fun d kv => dInsert d (partsDB_get db kv.1) kv.2) []

/-- The entries of the aggregate counter whose part number is unknown to
the parts database (these are exactly the ones `rekey` sends to `None`). -/
def unknowns (db : List String) (c : List (String × Int)) : List (String × Int) :=
  c.filter (fun kv => (partsDB_get db kv.1).isNone)

/-! ## The resolved tree

A resolved `BOM` node: its part number, its own row table (`self.df`), and
its children. In the source `self.children` is a single list whose members
are terminal items (`Item`, `item_type == 'part'`), sub-assembly `BOM`s
(`item_type == 'assembly'`) and `ItemLink` symlink nodes.
`SymlinkNodeMixin.__getattr__` forwards every ordinary attribute of an
`ItemLink` (`PN`, `item_type`, `flat`, `aggregate`, ...) to its target, so
for the whole query surface (`parts`, `assemblies`, `flat`, `QTY`,
`aggregate`, `summary`) a link behaves exactly like the node it targets.
A part-like child (an `Item` or a link to one) is therefore `Sum.inl pn`
and an assembly-like child (a sub-`BOM` or a link to one) is `Sum.inr t`.
`PartsDB.__init__` tags every item `item_type='part'` and
`parse_parent_child` tags every sub-assembly `'assembly'`, so the
`parts`/`assemblies` filters split `children` into exactly these two
kinds, keeping the relative order inside each kind. -/
inductive BTree where
  | mk (PN : String) (df : List PRow) (children : List (String ⊕ BTree))

/-- `BOM.PN` (also what `bom.PN` gives through a link). -/
def BTree.PN : BTree → String
  | .mk pn _ _ => pn

/-- `BOM.df`. -/
def BTree.df : BTree → List PRow
  | .mk _ df _ => df

/-- `BOM.children`. -/
def BTree.children : BTree → List (String ⊕ BTree)
  | .mk _ _ ch => ch

/-- `self.parts`: the part numbers of the direct part-like children, in
child order (each `Item` or part-`ItemLink` exposes its `PN`). -/
def partPNs (ch : List (String ⊕ BTree)) : List String :=
  ch.filterMap (fun x => match x with | .inl pn => some pn | .inr _ => none)

/-- `self.assemblies`: the direct assembly-like children, in child order. -/
def subTrees (ch : List (String ⊕ BTree)) : List BTree :=
  ch.filterMap (fun x => match x with | .inl _ => none | .inr t => some t)

/-- How many direct part-like children with the given part number a
children list holds. -/
def countPart (ch : List (String ⊕ BTree)) (pn : String) : Nat :=
  (partPNs ch).count pn

/-- `BOM.QTY(PN)`: `self.df.loc[self.df['PN']==PN, 'QTY'].iloc[0]`, i.e.
the `QTY` of the first row of this BOM's own table whose `PN` matches;
the `IndexError` of an empty selection is caught and `None` returned. -/
def QTY (df : List PRow) (pn : String) : Option Int :=
  (df.find? (fun r => r.PN == pn)).map PRow.QTY

/-! Number of part placements of `pn` in the whole tree: one per direct
part-like child with that part number, summed recursively through every
assembly-like child. -/
mutual
def placements (pn : String) : BTree → Nat
  | .mk _ _ ch => placementsCh pn ch
def placementsCh (pn : String) : List (String ⊕ BTree) → Nat
  | [] => 0
  | .inl p :: xs => (if p = pn then 1 else 0) + placementsCh pn xs
  | .inr t :: xs => placements pn t + placementsCh pn xs
end

/-! `BOM.flat`: `items = self.parts`, then `items += assem.flat` for each
direct sub-assembly in child order. Each entry is one placement of a part
(we record its part number, which is what each `Item`/`ItemLink` entry
exposes as `PN`/`name`). -/
mutual
def flat : BTree → List String
  | .mk _ _ ch => partPNs ch ++ flatAssems ch
def flatAssems : List (String ⊕ BTree) → List String
  | [] => []
  | .inl _ :: xs => flatAssems xs
  | .inr t :: xs => flat t ++ flatAssems xs
end

/-- The first loop of `BOM.aggregate`:
`for p in self.parts: parts.update({p.PN: self.QTY(p.PN)})`.
When `self.QTY` returns `None` (no matching row in this BOM's table),
`Counter.update` computes `None + 0` and raises `TypeError`; `none`
models that abort. -/
def aggParts (df : List PRow) : List (String ⊕ BTree) → List (String × Int) →
    Option (List (String × Int))
  | [], c => some c
  | .inl pn :: xs, c =>
    match QTY df pn with
    | none => none
    | some v => aggParts df xs (cUpdate c pn v)
  | .inr _ :: xs, c => aggParts df xs c

/-- The inner merge of `BOM.aggregate`:
`for k, v in bom.aggregate.items(): parts.update({k: v*self.QTY(bom.PN)})`. -/
def mergeMul (c sub : List (String × Int)) (q : Int) : List (String × Int) :=
  sub.foldl (fun acc kv => cUpdate acc kv.1 (kv.2 * q)) c

/-! `BOM.aggregate` without a parts database attached (every non-root node;
the root applies `rekey` on top, see `aggregateDB`): the part loop, then
for each direct sub-assembly the recursive aggregate merged multiplied by
`self.QTY(bom.PN)`. If the sub-aggregate is empty the merge loop body
never runs, so a missing `QTY` for the sub-assembly is only a `TypeError`
(modelled `none`) when there is at least one entry to merge. -/
mutual
def aggregate : BTree → Option (List (String × Int))
  | .mk _ df ch =>
    match aggParts df ch [] with
    | none => none
    | some c => aggAssems df ch c
def aggAssems (df : List PRow) : List (String ⊕ BTree) → List (String × Int) →
    Option (List (String × Int))
  | [], c => some c
  | .inl _ :: xs, c => aggAssems df xs c
  | .inr t :: xs, c =>
    match aggregate t with
    | none => none
    | some sub =>
      if sub.isEmpty then aggAssems df xs c
      else
        match QTY df t.PN with
        | none => none
        | some q => aggAssems df xs (mergeMul c sub q)
end

/-- `BOM.aggregate` on a node with `self.parts_db` attached (the root of a
resolved tree): the counter is rekeyed through `PartsDB.get`. -/
def aggregateDB (db : List String) (t : BTree) : Option (List (Option String × Int)) :=
  (aggregate t).map (rekey db)

/-! ## The summary table (`BOM.summary`) -/

/-- `pd.isnull` on a cell: true on `NaN` and on `None`, false on numbers
and strings. -/
def isnull : Cell → Bool
  | .nan => true
  | .pynone => true
  | _ => false

/-- Division `a / b` on cell values, as the summary pipeline performs it.
Both operands come out of pandas columns, so a number is a numpy scalar
and division by zero does NOT raise `ZeroDivisionError`: numpy emits a
`RuntimeWarning` and yields the IEEE-754 result — `±inf` for a nonzero
numerator (sign following the numerator, the zero being `+0.0`), `NaN`
for `0/0` and for `NaN/0`. Infinite operands likewise follow IEEE rules
(`inf/b` keeps an inf with the sign adjusted by `b`, a finite numerator
over `±inf` gives `±0.0`, modelled as `0`; `inf/inf` and anything with
`NaN` give `NaN`). An operand that is a string or `None` raises
`TypeError` (the other side being a numpy float, CPython's `str`
fallbacks do not apply). -/
def pyDiv : Cell → Cell → Except PyErr Cell
  | .num a, .num b =>
    if b = 0 then (if a = 0 then .ok .nan else .ok (.inf (decide (a < 0))))
    else .ok (.num (a / b))
  | .num _, .nan => .ok .nan
  | .nan, .num _ => .ok .nan
  | .nan, .nan => .ok .nan
  | .inf s, .num b => .ok (.inf (Bool.xor s (decide (b < 0))))
  | .num _, .inf _ => .ok (.num 0)
  | .inf _, .inf _ => .ok .nan
  | .inf _, .nan => .ok .nan
  | .nan, .inf _ => .ok .nan
  | .str _, _ => .error .typeError
  | _, .str _ => .error .typeError
  | .pynone, _ => .error .typeError
  | _, .pynone => .error .typeError

/-- `math.ceil` on a cell value: an integer for a number, `ValueError` on
`NaN` ("cannot convert float NaN to integer"), `OverflowError` on `±inf`
("cannot convert float infinity to integer"), `TypeError` otherwise. -/
def pyCeil : Cell → Except PyErr Cell
  | .num q => .ok (.num (⌈q⌉ : ℚ))
  | .nan => .error .valueError
  | .inf _ => .error .overflowError
  | _ => .error .typeError

/-- Python multiplication on the cells reaching `Purchase QTY * cost`.
`NaN` absorbs numbers; `None` raises `TypeError`. A string operand is
modelled as `TypeError` (with a float quantity that is what numpy raises;
the exotic CPython `int * str` string-repetition corner is outside the
modelled inputs). -/
def pyMul : Cell → Cell → Except PyErr Cell
  | .num a, .num b => .ok (.num (a * b))
  | .num _, .nan => .ok .nan
  | .nan, .num _ => .ok .nan
  | .nan, .nan => .ok .nan
  | .inf s, .num b =>
    if b = 0 then .ok .nan else .ok (.inf (Bool.xor s (decide (b < 0))))
  | .num a, .inf s =>
    if a = 0 then .ok .nan else .ok (.inf (Bool.xor s (decide (a < 0))))
  | .inf s, .inf u => .ok (.inf (Bool.xor s u))
  | .inf _, .nan => .ok .nan
  | .nan, .inf _ => .ok .nan
  | .str _, _ => .error .typeError
  | _, .str _ => .error .typeError
  | .pynone, _ => .error .typeError
  | _, .pynone => .error .typeError

/-- `col in row` / `row[col]` on the named columns of a summary row
(searched among the row's non-`PN` columns). -/
def getCol (row : PartRow) (col : String) : Option Cell :=
  (row.attrs.find? (fun kv => kv.1 == col)).map Prod.snd

/-- Column-name constants of the three derived summary columns and the
input columns the row helpers read. -/
def colTotal : String := "Total QTY"

def colPurchase : String := "Purchase QTY"

def colSubtotal : String := "Subtotal"

def colPkgQty : String := "Pkg QTY"

def colPkgPrice : String := "Pkg Price"

def colCost : String := "Cost"

/-- `packages_to_buy(row)` inside `BOM.summary`:
if the `Pkg QTY` column is absent or null, return `Total QTY` unchanged;
otherwise `ceil(Total QTY / Pkg QTY)`, where only a `ValueError` (raised
by `ceil` on `NaN`, e.g. after a null total or a `0/0`) is caught and
turned into `0`; every other exception propagates — `TypeError` for a
non-numeric package quantity, `OverflowError` from `ceil` on the `±inf`
a nonzero numeric total divided by a zero package quantity yields. -/
def packages_to_buy (row : PartRow) : Except PyErr Cell :=
  match getCol row colPkgQty with
  | none => match getCol row colTotal with
    | none => .error .keyError
    | some total => .ok total
  | some pkg =>
    if isnull pkg then
      match getCol row colTotal with
      | none => .error .keyError
      | some total => .ok total
    else
      match getCol row colTotal with
      | none => .error .keyError
      | some total =>
        match pyDiv total pkg with
        | .error e => .error e
        | .ok d =>
          match pyCeil d with
          | .ok v => .ok v
          | .error .valueError => .ok (.num 0)
          | .error e => .error e

/-- The cost column `subtotal(row)` picks: `Pkg Price` when present and
non-null, else `Cost` when present and non-null, else nothing. -/
def chooseCost (row : PartRow) : Option Cell :=
  match getCol row colPkgPrice with
  | some v =>
    if isnull v then
      match getCol row colCost with
      | some w => if isnull w then none else some w
      | none => none
    else some v
  | none =>
    match getCol row colCost with
    | some w => if isnull w then none else some w
    | none => none

/-- `subtotal(row)` inside `BOM.summary`: `NaN` when no usable cost
column exists, else `row['Purchase QTY'] * row[cost_col]`. -/
def subtotalF (row : PartRow) : Except PyErr Cell :=
  match chooseCost row with
  | none => .ok .nan
  | some cost =>
    match getCol row colPurchase with
    | none => .error .keyError
    | some pq => pyMul pq cost

/-- The `Total QTY` column: `df.apply(lambda row: counts.get(row.PN))`.
`dict.get` misses give Python `None`; when at least one row hits, pandas
stores the column as float64 and coerces every `None` to `NaN`, while an
all-`None` column keeps dtype object and the `None`s survive. -/
def totalCells (counts : List (String × Int)) (db : List PartRow) : List Cell :=
  let vals := db.map (fun row => counts.find? (fun kv => kv.1 == row.PN))
  if vals.all Option.isNone then vals.map (fun _ => Cell.pynone)
  else vals.map (fun v => match v with | some kv => Cell.num kv.2 | none => Cell.nan)

/-- `BOM.summary`. `self.aggregate` runs first (a `TypeError` there
propagates). Without a parts database (`self.parts_db is None`, every
non-root node) the counter keys are strings, so `k.PN` in the `counts`
comprehension raises `AttributeError` on a `str`; if the counter is empty
the comprehension is skipped and `self.parts_db.df` raises
`AttributeError` on `None`. With a parts database the aggregate was
rekeyed through `PartsDB.get`, so a `None` key (an aggregated part number
missing from the database) makes `k.PN` raise `AttributeError` on `None`;
otherwise the three derived columns are computed row by row and assigned
onto `df = self.parts_db.df` — the parts database's own DataFrame, not a
copy. -/
def summary (dbOpt : Option (List PartRow)) (t : BTree) : Except PyErr (List PartRow) :=
  match aggregate t with
  | none => .error .typeError
  | some c =>
    match dbOpt with
    | none =>
      match c with
      | [] => .error .attributeNone
      | _ :: _ => .error .attributeStr
    | some db =>
      let keys := db.map PartRow.PN
      let rk := rekey keys c
      if rk.any (fun kv => kv.1.isNone) then .error .attributeNone
      else
        let counts := rk.filterMap (fun kv => kv.1.map (fun pn => (pn, kv.2)))
        let df1 := db.zipWith (fun row cell =>
          { row with attrs := row.attrs ++ [(colTotal, cell)] }) (totalCells counts db)
        match df1.mapM (fun row =>
            (packages_to_buy row).map (fun pq =>
              { row with attrs := row.attrs ++ [(colPurchase, pq)] })) with
        | .error e => .error e
        | .ok df2 =>
          match df2.mapM (fun row =>
              (subtotalF row).map (fun st =>
                { row with attrs := row.attrs ++ [(colSubtotal, st)] })) with
          | .error e => .error e
          | .ok df3 => .ok df3

/-- A call `root.summary` observed together with its effect on the parts
database: the source binds `df = self.parts_db.df` and assigns the three
new columns in place, so on success the returned table and the parts
database's DataFrame after the call are the same object. -/
def summaryRun (db : List PartRow) (t : BTree) : Except PyErr (List PartRow × List PartRow) :=
  (summary (some db) t).map (fun d => (d, d))

/-! ## The graph builder (`BOM.parse_parent_child`)

Inputs: the parts database (as the key set of `PartsDB.parts`) and the
`assemblies` dict, modelled as an insertion-ordered list of
`(PN, row table)` pairs with distinct keys (Python dict keys are unique
and iterate in insertion order).

The builder's per-assembly state: `aP` assigns each sub-assembly its
parent (set immediately by `sub_bom.parent = bom` inside the row loop),
`pP` assigns each placed `Item` its parent (set by the `anytree` children
setter at `bom.children = children`, i.e. only once the whole table is
done, so the row loop of one table always sees the part parents as they
were when that table started), and `kids` records each processed
assembly's children list. -/

/-- A child produced by `parse_parent_child`: a terminal `Item` owned
here, an `ItemLink` to the unique `Item` of that part number, an owned
sub-assembly, or an `ItemLink` to the assembly of that part number. -/
inductive Node where
  | item (pn : String)
  | itemLink (pn : String)
  | subAssem (pn : String)
  | assemLink (pn : String)
deriving DecidableEq, Repr

/-- The builder state. -/
structure St where
  aP : List (String × String)
  pP : List (String × String)
  kids : List (String × List Node)
deriving DecidableEq, Repr

/-- The chain of ancestors of `x` under the assembly-parent map, followed
for at most `fuel` steps (`aP.length` steps suffice on the acyclic states
the builder maintains). Models `anytree`'s walk over `node.iter_path_reverse()`. -/
def ancChain (aP : List (String × String)) : Nat → String → List String
  | 0, _ => []
  | fuel + 1, x =>
    match aP.lookup x with
    | none => []
    | some p => p :: ancChain aP fuel p

/-- `anytree`'s loop check when running `sub_bom.parent = bom`: setting
the parent raises `LoopError` when `sub_bom` is `bom` itself or one of
`bom`'s current ancestors. -/
def loopCheck (aP : List (String × String)) (sub bom : String) : Bool :=
  sub == bom || (ancChain aP aP.length bom).contains sub

/-- The row loop of `parse_parent_child` for one assembly `apn`.
`keys` are the assembly dict's keys, `db` the parts database key set,
`pPsnap` the part-parent map as of the start of this table. The
accumulator carries the live assembly-parent map, the children collected
so far, and the part numbers of the `Item`s appended directly (used for
the `anytree` duplicate check at `bom.children = children`).

A row whose `PN` is an assembly key: if that assembly already has a
parent it is wrapped in an `ItemLink`, otherwise the current assembly
becomes its parent (raising `LoopError` if that would close a cycle) and
it is appended directly. Otherwise the row is a part:
`parts_db.get(row.PN)` returns `None` for an unknown part number — it
never raises the `IndexError` the `except` clause waits for — so the
following `part_.parent` raises `AttributeError` on `None` and aborts the
build (the `print/continue` skip branch is dead code). A known part is
appended as an `ItemLink` when the unique `Item` already has a parent
and directly otherwise. -/
def procRows (keys db : List String) (pPsnap : List (String × String)) (apn : String) :
    List PRow → List (String × String) → List Node → List String →
    Except PyErr (List (String × String) × List Node × List String)
  | [], aP, acc, newP => .ok (aP, acc, newP)
  | r :: rs, aP, acc, newP =>
    if r.PN ∈ keys then
      match aP.lookup r.PN with
      | some _ => procRows keys db pPsnap apn rs aP (acc ++ [.assemLink r.PN]) newP
      | none =>
        if loopCheck aP r.PN apn then .error .loopError
        else procRows keys db pPsnap apn rs ((r.PN, apn) :: aP) (acc ++ [.subAssem r.PN]) newP
    else
      match partsDB_get db r.PN with
      | none => .error .attributeNone
      | some p =>
        match pPsnap.lookup p with
        | some _ => procRows keys db pPsnap apn rs aP (acc ++ [.itemLink p]) newP
        | none => procRows keys db pPsnap apn rs aP (acc ++ [.item p]) (newP ++ [p])

/-- Processing one `(apn, rows)` entry of the assemblies dict: run the row
loop, then `bom.children = children`. The `anytree` children setter
refuses to attach the same node object twice (`TreeError`); the only way
the collected children can repeat an object is the unique `Item` of some
part number appearing twice (links are fresh objects each time), i.e. a
duplicate in `newP`. On success the setter records this assembly as the
parent of every directly placed `Item`. -/
def procTable (keys db : List String) (st : St) (entry : String × List PRow) :
    Except PyErr St :=
  match procRows keys db st.pP entry.1 entry.2 st.aP [] [] with
  | .error e => .error e
  | .ok (aP', ch, newP) =>
    if newP.Nodup then
      .ok ⟨aP', st.pP ++ newP.map (fun p => (p, entry.1)), st.kids ++ [(entry.1, ch)]⟩
    else .error .treeError

/-- The first phase of `parse_parent_child`: the loop over
`assemblies.items()`. -/
def processAll (db : List String) (asm : List (String × List PRow)) : Except PyErr St :=
  asm.foldlM (procTable (asm.map Prod.fst) db) ⟨[], [], []⟩

/-- `BOM.parse_parent_child`: process every table, then collect
`[bom for bom in assemblies.values() if bom.is_root]` (the assemblies
never assigned a parent, in dict order). More than one raises
`Exception('Singular root BOM not found')`, none raises
`Exception('No root BOM found')`; otherwise the unique root (which gets
the parts database attached) is returned together with the final state. -/
def parse_parent_child (db : List String) (asm : List (String × List PRow)) :
    Except PyErr (String × St) :=
  match processAll db asm with
  | .error e => .error e
  | .ok st =>
    match (asm.filter (fun a => (st.aP.lookup a.1).isNone)).map Prod.fst with
    | [] => .error .noRoot
    | [r] => .ok (r, st)
    | _ :: _ :: _ => .error .multiRoot

/-- The number of unparented assemblies once all tables are processed
(`none` when row processing itself aborts). -/
def rootCount (db : List String) (asm : List (String × List PRow)) : Option Nat :=
  (processAll db asm).toOption.map
    (fun st => (asm.filter (fun a => (st.aP.lookup a.1).isNone)).length)

/-- The children list the builder gave assembly `apn` (`none` when
processing aborted or `apn` is not an assembly key). -/
def childrenOf (db : List String) (asm : List (String × List PRow)) (apn : String) :
    Option (List Node) :=
  (processAll db asm).toOption.bind (fun st => st.kids.lookup apn)

/-- The parent assigned to assembly `apn`. -/
def parentOf (db : List String) (asm : List (String × List PRow)) (apn : String) :
    Option String :=
  (processAll db asm).toOption.bind (fun st => st.aP.lookup apn)

/-- Whether a row table references `pn`. -/
def mentions (rows : List PRow) (pn : String) : Bool :=
  rows.any (fun r => r.PN == pn)

/-- How many rows of a table reference `pn`. -/
def mcount (rows : List PRow) (pn : String) : Nat :=
  rows.countP (fun r => r.PN == pn)

/-- The first assembly (in dict order) whose table references `pn`. -/
def firstMention (asm : List (String × List PRow)) (pn : String) : Option String :=
  (asm.find? (fun a => mentions a.2 pn)).map Prod.fst

/-- How many direct children across all processed assemblies are the
terminal `Item` of part number `pn` (object identity: `PartsDB` holds one
`Item` per part number, so every `Node.item pn` child is that object). -/
def itemPlacements (st : St) (pn : String) : Nat :=
  (st.kids.map (fun e => e.2.count (Node.item pn))).sum

/-! # Theorems -/

/-! ## Counter lemmas -/

theorem cGet_cUpdate (c : List (String × Int)) (k k' : String) (v : Int) :
    cGet (cUpdate c k v) k' = if k = k' then cGet c k' + v else cGet c k' := by
  induction c with
  | nil => by_cases h : k = k' <;> simp [cUpdate, cGet, h]
  | cons kv rest ih =>
    obtain ⟨a, b⟩ := kv
    simp only [cUpdate]
    by_cases hak : a = k
    · subst hak
      by_cases hk' : a = k' <;> simp [cGet, hk']
    · rw [if_neg hak]
      by_cases hk' : a = k'
      · subst hk'
        have hk : ¬ k = a := fun h => hak h.symm
        simp [cGet, hk]
      · simp [cGet, hk', ih]

theorem mem_keysOf_cUpdate_iff (c : List (String × Int)) (k k' : String) (v : Int) :
    k' ∈ keysOf (cUpdate c k v) ↔ k' ∈ keysOf c ∨ k' = k := by
  induction c with
  | nil => simp [cUpdate, keysOf]
  | cons kv rest ih =>
    obtain ⟨a, b⟩ := kv
    simp only [cUpdate]
    by_cases hak : a = k
    · subst hak
      simp [keysOf]
      tauto
    · rw [if_neg hak]
      simp only [keysOf, List.map_cons, List.mem_cons] at ih ⊢
      constructor
      · intro h
        rcases h with h | h
        · exact Or.inl (Or.inl h)
        · rcases ih.1 h with h2 | h2
          · exact Or.inl (Or.inr h2)
          · exact Or.inr h2
      · intro h
        rcases h with (h | h) | h
        · exact Or.inl h
        · exact Or.inr (ih.2 (Or.inl h))
        · exact Or.inr (ih.2 (Or.inr h))

theorem nodup_keysOf_cUpdate (c : List (String × Int)) (k : String) (v : Int)
    (h : (keysOf c).Nodup) : (keysOf (cUpdate c k v)).Nodup := by
  induction c with
  | nil => simp [cUpdate, keysOf]
  | cons kv rest ih =>
    obtain ⟨a, b⟩ := kv
    simp only [keysOf, List.map_cons, List.nodup_cons] at h
    simp only [cUpdate]
    by_cases hak : a = k
    · subst hak
      rw [if_pos rfl]
      simp only [keysOf, List.map_cons, List.nodup_cons]
      exact ⟨h.1, h.2⟩
    · rw [if_neg hak]
      simp only [keysOf, List.map_cons, List.nodup_cons]
      refine ⟨?_, ih h.2⟩
      intro hmem
      rcases (mem_keysOf_cUpdate_iff rest k a v).1 hmem with h2 | h2
      · exact h.1 h2
      · exact hak h2

theorem mem_keysOf_cUpdate (c : List (String × Int)) (k k' : String) (v : Int)
    (h : k' ∈ keysOf c) : k' ∈ keysOf (cUpdate c k v) :=
  (mem_keysOf_cUpdate_iff c k k' v).2 (Or.inl h)

theorem self_mem_keysOf_cUpdate (c : List (String × Int)) (k : String) (v : Int) :
    k ∈ keysOf (cUpdate c k v) :=
  (mem_keysOf_cUpdate_iff c k k v).2 (Or.inr rfl)

theorem entriesSum_eq_zero_of_not_mem (c : List (String × Int)) (k : String)
    (h : k ∉ keysOf c) : entriesSum c k = 0 := by
  induction c with
  | nil => simp [entriesSum]
  | cons kv rest ih =>
    obtain ⟨a, b⟩ := kv
    simp only [keysOf, List.map_cons, List.mem_cons, not_or] at h
    have hak : ¬ a = k := fun he => h.1 he.symm
    simp only [entriesSum, List.map_cons, List.sum_cons, if_neg hak]
    simpa [entriesSum] using ih (by simpa [keysOf] using h.2)

theorem entriesSum_eq_cGet (c : List (String × Int)) (k : String)
    (h : (keysOf c).Nodup) : entriesSum c k = cGet c k := by
  induction c with
  | nil => simp [entriesSum, cGet]
  | cons kv rest ih =>
    obtain ⟨a, b⟩ := kv
    simp only [keysOf, List.map_cons, List.nodup_cons] at h
    by_cases hak : a = k
    · subst hak
      have hz : entriesSum rest a = 0 :=
        entriesSum_eq_zero_of_not_mem rest a (by simpa [keysOf] using h.1)
      simp only [entriesSum, List.map_cons, List.sum_cons, if_pos rfl, cGet]
      simp only [entriesSum] at hz
      simp [hz]
    · simp only [entriesSum, List.map_cons, List.sum_cons, if_neg hak, cGet]
      simpa [entriesSum] using ih h.2

theorem mem_of_mem_keysOf (c : List (String × Int)) (k : String)
    (h : k ∈ keysOf c) : (k, cGet c k) ∈ c := by
  induction c with
  | nil => simp [keysOf] at h
  | cons kv rest ih =>
    obtain ⟨a, b⟩ := kv
    by_cases hak : a = k
    · subst hak
      simp [cGet]
    · simp only [keysOf, List.map_cons, List.mem_cons] at h
      rcases h with h | h
      · exact absurd h.symm hak
      · simp only [cGet, if_neg hak, List.mem_cons]
        exact Or.inr (ih h)

theorem cGet_mergeMul (c sub : List (String × Int)) (q : Int) (k : String) :
    cGet (mergeMul c sub q) k = cGet c k + entriesSum sub k * q := by
  induction sub generalizing c with
  | nil => simp [mergeMul, entriesSum]
  | cons kv rest ih =>
    obtain ⟨a, b⟩ := kv
    have hstep : mergeMul c ((a, b) :: rest) q = mergeMul (cUpdate c a (b * q)) rest q := by
      simp [mergeMul]
    rw [hstep, ih, cGet_cUpdate]
    by_cases hak : a = k
    · simp only [entriesSum, List.map_cons, List.sum_cons, if_pos hak]
      ring
    · simp only [entriesSum, List.map_cons, List.sum_cons, if_neg hak]
      ring

theorem keysOf_mergeMul_mono_left (c sub : List (String × Int)) (q : Int) (k : String)
    (h : k ∈ keysOf c) : k ∈ keysOf (mergeMul c sub q) := by
  induction sub generalizing c with
  | nil => simpa [mergeMul] using h
  | cons kv rest ih =>
    have hstep : mergeMul c (kv :: rest) q = mergeMul (cUpdate c kv.1 (kv.2 * q)) rest q := by
      simp [mergeMul]
    rw [hstep]
    exact ih _ (mem_keysOf_cUpdate _ _ _ _ h)

theorem keysOf_mergeMul_mono_right (c sub : List (String × Int)) (q : Int) (k : String)
    (h : k ∈ keysOf sub) : k ∈ keysOf (mergeMul c sub q) := by
  induction sub generalizing c with
  | nil => simp [keysOf] at h
  | cons kv rest ih =>
    have hstep : mergeMul c (kv :: rest) q = mergeMul (cUpdate c kv.1 (kv.2 * q)) rest q := by
      simp [mergeMul]
    rw [hstep]
    simp only [keysOf, List.map_cons, List.mem_cons] at h
    rcases h with h | h
    · subst h
      exact keysOf_mergeMul_mono_left _ _ _ _ (self_mem_keysOf_cUpdate _ _ _)
    · exact ih _ h

theorem nodup_keysOf_mergeMul (c sub : List (String × Int)) (q : Int)
    (h : (keysOf c).Nodup) : (keysOf (mergeMul c sub q)).Nodup := by
  induction sub generalizing c with
  | nil => simpa [mergeMul] using h
  | cons kv rest ih =>
    have hstep : mergeMul c (kv :: rest) q = mergeMul (cUpdate c kv.1 (kv.2 * q)) rest q := by
      simp [mergeMul]
    rw [hstep]
    exact ih _ (nodup_keysOf_cUpdate _ _ _ h)

/-! ## Tree induction and equation lemmas -/

theorem subTrees_mem_iff (ch : List (String ⊕ BTree)) (t : BTree) :
    t ∈ subTrees ch ↔ Sum.inr t ∈ ch := by
  induction ch with
  | nil => simp [subTrees]
  | cons x xs ih =>
    cases x with
    | inl pn => simpa [subTrees] using ih
    | inr t' =>
      simp only [subTrees, List.filterMap_cons] at ih ⊢
      simp [List.mem_cons, ih, Sum.inr.injEq]

theorem btree_ind (motive : BTree → Prop)
    (h : ∀ pn df ch, (∀ t, Sum.inr t ∈ ch → motive t) → motive (.mk pn df ch)) :
    ∀ t, motive t
  | .mk pn df ch => h pn df ch (fun t ht => btree_ind motive h t)
termination_by t => sizeOf t
decreasing_by
  have h1 : sizeOf (Sum.inr t : String ⊕ BTree) < sizeOf ch := List.sizeOf_lt_of_mem ht
  simp only [Sum.inr.sizeOf_spec] at h1
  simp only [BTree.mk.sizeOf_spec]
  omega

theorem aggregate_mk (pn : String) (df : List PRow) (ch : List (String ⊕ BTree)) :
    aggregate (.mk pn df ch) =
      match aggParts df ch [] with
      | none => none
      | some c => aggAssems df ch c := by
  rw [aggregate]

theorem aggAssems_nil (df : List PRow) (c : List (String × Int)) :
    aggAssems df [] c = some c := by
  rw [aggAssems]

theorem aggAssems_inl (df : List PRow) (pn : String) (xs : List (String ⊕ BTree))
    (c : List (String × Int)) : aggAssems df (.inl pn :: xs) c = aggAssems df xs c := by
  rw [aggAssems]

theorem aggAssems_inr (df : List PRow) (t : BTree) (xs : List (String ⊕ BTree))
    (c : List (String × Int)) :
    aggAssems df (.inr t :: xs) c =
      match aggregate t with
      | none => none
      | some sub =>
        if sub.isEmpty then aggAssems df xs c
        else
          match QTY df t.PN with
          | none => none
          | some q => aggAssems df xs (mergeMul c sub q) := by
  rw [aggAssems]

/-! ## Behaviour of the part loop of `aggregate` -/

theorem countPart_cons_inl (pn : String) (xs : List (String ⊕ BTree)) (P : String) :
    countPart (.inl pn :: xs) P = countPart xs P + (if pn = P then 1 else 0) := by
  by_cases h : pn = P <;> simp [countPart, partPNs, List.count_cons, h]

theorem countPart_cons_inr (t : BTree) (xs : List (String ⊕ BTree)) (P : String) :
    countPart (.inr t :: xs) P = countPart xs P := by
  simp [countPart, partPNs]

theorem aggParts_ok_cGet_zero (df : List PRow) (P : String) :
    ∀ (ch : List (String ⊕ BTree)) (c0 c : List (String × Int)),
      countPart ch P = 0 → aggParts df ch c0 = some c → cGet c P = cGet c0 P := by
  intro ch
  induction ch with
  | nil =>
    intro c0 c _ h
    simp [aggParts] at h
    simp [h]
  | cons x xs ih =>
    intro c0 c hc h
    cases x with
    | inl pn =>
      rw [countPart_cons_inl] at hc
      have hpn : ¬ pn = P := by
        intro he
        rw [if_pos he] at hc
        omega
      have hc' : countPart xs P = 0 := by
        rw [if_neg hpn] at hc
        omega
      simp only [aggParts] at h
      cases hq : QTY df pn with
      | none => rw [hq] at h; exact absurd h (by simp)
      | some v =>
        rw [hq] at h
        have := ih (cUpdate c0 pn v) c hc' h
        rw [this, cGet_cUpdate, if_neg hpn]
    | inr t =>
      rw [countPart_cons_inr] at hc
      simp only [aggParts] at h
      exact ih c0 c hc h

theorem aggParts_ok_cGet (df : List PRow) (P : String) (v : Int) (hv : QTY df P = some v) :
    ∀ (ch : List (String ⊕ BTree)) (c0 c : List (String × Int)),
      aggParts df ch c0 = some c →
      cGet c P = cGet c0 P + (countPart ch P : Int) * v := by
  intro ch
  induction ch with
  | nil =>
    intro c0 c h
    simp [aggParts] at h
    simp [countPart, partPNs, h]
  | cons x xs ih =>
    intro c0 c h
    cases x with
    | inl pn =>
      simp only [aggParts] at h
      cases hq : QTY df pn with
      | none => rw [hq] at h; exact absurd h (by simp)
      | some w =>
        rw [hq] at h
        have hrec := ih (cUpdate c0 pn w) c h
        by_cases hpn : pn = P
        · subst hpn
          have hwv : w = v := by
            rw [hv] at hq
            injection hq with h2
            exact h2.symm
          subst hwv
          rw [hrec, cGet_cUpdate, if_pos rfl, countPart_cons_inl, if_pos rfl]
          push_cast
          ring
        · rw [hrec, cGet_cUpdate, if_neg hpn, countPart_cons_inl, if_neg hpn]
          push_cast
          ring
    | inr t =>
      simp only [aggParts] at h
      rw [countPart_cons_inr]
      exact ih c0 c h

theorem aggParts_keys_mono (df : List PRow) (k : String) :
    ∀ (ch : List (String ⊕ BTree)) (c0 c : List (String × Int)),
      aggParts df ch c0 = some c → k ∈ keysOf c0 → k ∈ keysOf c := by
  intro ch
  induction ch with
  | nil =>
    intro c0 c h hm
    simp [aggParts] at h
    simpa [h] using hm
  | cons x xs ih =>
    intro c0 c h hm
    cases x with
    | inl pn =>
      simp only [aggParts] at h
      cases hq : QTY df pn with
      | none => rw [hq] at h; exact absurd h (by simp)
      | some w =>
        rw [hq] at h
        exact ih _ _ h (mem_keysOf_cUpdate _ _ _ _ hm)
    | inr t =>
      simp only [aggParts] at h
      exact ih _ _ h hm

theorem aggParts_key_mem (df : List PRow) (P : String) :
    ∀ (ch : List (String ⊕ BTree)) (c0 c : List (String × Int)),
      aggParts df ch c0 = some c → 0 < countPart ch P → P ∈ keysOf c := by
  intro ch
  induction ch with
  | nil =>
    intro c0 c _ hc
    simp [countPart, partPNs] at hc
  | cons x xs ih =>
    intro c0 c h hc
    cases x with
    | inl pn =>
      simp only [aggParts] at h
      cases hq : QTY df pn with
      | none => rw [hq] at h; exact absurd h (by simp)
      | some w =>
        rw [hq] at h
        by_cases hpn : pn = P
        · subst hpn
          exact aggParts_keys_mono df pn xs _ _ h (self_mem_keysOf_cUpdate _ _ _)
        · have : 0 < countPart xs P := by
            rw [countPart_cons_inl, if_neg hpn] at hc
            omega
          exact ih _ _ h this
    | inr t =>
      simp only [aggParts] at h
      rw [countPart_cons_inr] at hc
      exact ih _ _ h hc

theorem aggParts_nodup (df : List PRow) :
    ∀ (ch : List (String ⊕ BTree)) (c0 c : List (String × Int)),
      aggParts df ch c0 = some c → (keysOf c0).Nodup → (keysOf c).Nodup := by
  intro ch
  induction ch with
  | nil =>
    intro c0 c h hn
    simp [aggParts] at h
    simpa [h] using hn
  | cons x xs ih =>
    intro c0 c h hn
    cases x with
    | inl pn =>
      simp only [aggParts] at h
      cases hq : QTY df pn with
      | none => rw [hq] at h; exact absurd h (by simp)
      | some w =>
        rw [hq] at h
        exact ih _ _ h (nodup_keysOf_cUpdate _ _ _ hn)
    | inr t =>
      simp only [aggParts] at h
      exact ih _ _ h hn

/-! ## Behaviour of the sub-assembly loop of `aggregate` -/

theorem aggAssems_append (df : List PRow) (l1 l2 : List (String ⊕ BTree)) :
    ∀ c0, aggAssems df (l1 ++ l2) c0 =
      (aggAssems df l1 c0).bind (fun c => aggAssems df l2 c) := by
  induction l1 with
  | nil =>
    intro c0
    simp [aggAssems_nil]
  | cons x xs ih =>
    intro c0
    cases x with
    | inl pn => simp only [List.cons_append, aggAssems_inl]; exact ih c0
    | inr t =>
      simp only [List.cons_append, aggAssems_inr]
      cases aggregate t with
      | none => simp
      | some sub =>
        by_cases hs : sub.isEmpty
        · simp only [hs, if_pos rfl]
          exact ih c0
        · simp only [hs]
          rw [if_neg (by simp [hs]), if_neg (by simp [hs])]
          cases QTY df t.PN with
          | none => simp
          | some q => exact ih _

theorem aggAssems_keys_mono (df : List PRow) (k : String) :
    ∀ (ch : List (String ⊕ BTree)) (c0 c : List (String × Int)),
      aggAssems df ch c0 = some c → k ∈ keysOf c0 → k ∈ keysOf c := by
  intro ch
  induction ch with
  | nil =>
    intro c0 c h hm
    rw [aggAssems_nil] at h
    injection h with h2
    simpa [h2.symm] using hm
  | cons x xs ih =>
    intro c0 c h hm
    cases x with
    | inl pn =>
      rw [aggAssems_inl] at h
      exact ih _ _ h hm
    | inr t =>
      rw [aggAssems_inr] at h
      cases hagg : aggregate t with
      | none => rw [hagg] at h; exact absurd h (by simp)
      | some sub =>
        simp only [hagg] at h
        by_cases hs : sub.isEmpty
        · rw [if_pos hs] at h
          exact ih _ _ h hm
        · rw [if_neg hs] at h
          cases hq : QTY df t.PN with
          | none => rw [hq] at h; exact absurd h (by simp)
          | some q =>
            simp only [hq] at h
            exact ih _ _ h (keysOf_mergeMul_mono_left _ _ _ _ hm)

theorem aggAssems_nodup (df : List PRow) :
    ∀ (ch : List (String ⊕ BTree)) (c0 c : List (String × Int)),
      aggAssems df ch c0 = some c → (keysOf c0).Nodup → (keysOf c).Nodup := by
  intro ch
  induction ch with
  | nil =>
    intro c0 c h hn
    rw [aggAssems_nil] at h
    injection h with h2
    simpa [h2.symm] using hn
  | cons x xs ih =>
    intro c0 c h hn
    cases x with
    | inl pn =>
      rw [aggAssems_inl] at h
      exact ih _ _ h hn
    | inr t =>
      rw [aggAssems_inr] at h
      cases hagg : aggregate t with
      | none => rw [hagg] at h; exact absurd h (by simp)
      | some sub =>
        simp only [hagg] at h
        by_cases hs : sub.isEmpty
        · rw [if_pos hs] at h
          exact ih _ _ h hn
        · rw [if_neg hs] at h
          cases hq : QTY df t.PN with
          | none => rw [hq] at h; exact absurd h (by simp)
          | some q =>
            simp only [hq] at h
            exact ih _ _ h (nodup_keysOf_mergeMul _ _ _ hn)

theorem aggAssems_noContrib (df : List PRow) (P : String) :
    ∀ (ch : List (String ⊕ BTree)) (c0 c : List (String × Int)),
      (∀ t sub, Sum.inr t ∈ ch → aggregate t = some sub → entriesSum sub P = 0) →
      aggAssems df ch c0 = some c → cGet c P = cGet c0 P := by
  intro ch
  induction ch with
  | nil =>
    intro c0 c _ h
    rw [aggAssems_nil] at h
    injection h with h2
    rw [h2]
  | cons x xs ih =>
    intro c0 c hsub h
    cases x with
    | inl pn =>
      rw [aggAssems_inl] at h
      exact ih _ _ (fun t sub ht => hsub t sub (List.mem_cons_of_mem _ ht)) h
    | inr t =>
      rw [aggAssems_inr] at h
      cases hagg : aggregate t with
      | none => rw [hagg] at h; exact absurd h (by simp)
      | some sub =>
        simp only [hagg] at h
        by_cases hs : sub.isEmpty
        · rw [if_pos hs] at h
          exact ih _ _ (fun t' sub' ht' => hsub t' sub' (List.mem_cons_of_mem _ ht')) h
        · rw [if_neg hs] at h
          cases hq : QTY df t.PN with
          | none => rw [hq] at h; exact absurd h (by simp)
          | some q =>
            rw [hq] at h
            have hz : entriesSum sub P = 0 :=
              hsub t sub (List.mem_cons_self _ _) hagg
            have := ih _ _ (fun t' sub' ht' => hsub t' sub' (List.mem_cons_of_mem _ ht')) h
            rw [this, cGet_mergeMul, hz]
            ring

/-! ## Tree-level aggregate lemmas -/

theorem aggregate_nodup (t : BTree) (c : List (String × Int))
    (h : aggregate t = some c) : (keysOf c).Nodup := by
  obtain ⟨pn, df, ch⟩ := t
  rw [aggregate_mk] at h
  cases hp : aggParts df ch [] with
  | none => rw [hp] at h; exact absurd h (by simp)
  | some c1 =>
    rw [hp] at h
    have h1 : (keysOf c1).Nodup := aggParts_nodup df ch [] c1 hp (by simp [keysOf])
    exact aggAssems_nodup df ch c1 c h h1

theorem placementsCh_decomp (P : String) (ch : List (String ⊕ BTree)) :
    placementsCh P ch = countPart ch P + ((subTrees ch).map (placements P)).sum := by
  induction ch with
  | nil => simp [placementsCh, countPart, partPNs, subTrees]
  | cons x xs ih =>
    cases x with
    | inl pn =>
      simp only [placementsCh, countPart_cons_inl, subTrees, List.filterMap_cons_none]
      by_cases h : pn = P <;> simp [h, ih, subTrees] <;> omega
    | inr t =>
      simp only [placementsCh, countPart_cons_inr, subTrees, List.filterMap_cons_some,
        List.map_cons, List.sum_cons]
      rw [ih]
      simp [subTrees]
      omega

theorem aggregate_entriesSum_zero (P : String) :
    ∀ t, ∀ c, placements P t = 0 → aggregate t = some c → entriesSum c P = 0 := by
  intro t
  induction t using btree_ind with
  | _ pn df ch ihsub =>
    intro c hp h
    rw [placements] at hp
    rw [placementsCh_decomp] at hp
    have hcp : countPart ch P = 0 := by omega
    have hsubz : ∀ t' ∈ subTrees ch, placements P t' = 0 := by
      intro t' ht'
      have hsum : ((subTrees ch).map (placements P)).sum = 0 := by omega
      have := List.sum_eq_zero_iff.1 hsum
      exact this _ (List.mem_map_of_mem _ ht')
    rw [aggregate_mk] at h
    cases hpp : aggParts df ch [] with
    | none => rw [hpp] at h; exact absurd h (by simp)
    | some c1 =>
      rw [hpp] at h
      have h1 : cGet c1 P = 0 := by
        have := aggParts_ok_cGet_zero df P ch [] c1 hcp hpp
        simpa [cGet] using this
      have h2 : cGet c P = cGet c1 P := by
        refine aggAssems_noContrib df P ch c1 c ?_ h
        intro t' sub' ht' hagg'
        exact ihsub t' ht' sub' (hsubz t' ((subTrees_mem_iff ch t').2 ht')) hagg'
      have hnd : (keysOf c).Nodup := aggregate_nodup (.mk pn df ch) c (by rw [aggregate_mk, hpp]; exact h)
      rw [entriesSum_eq_cGet c P hnd, h2, h1]

/-! ## Flattening -/

theorem placements_mk (P pn : String) (df : List PRow) (ch : List (String ⊕ BTree)) :
    placements P (.mk pn df ch) = placementsCh P ch := by
  rw [placements]

theorem flat_mk (pn : String) (df : List PRow) (ch : List (String ⊕ BTree)) :
    flat (.mk pn df ch) = partPNs ch ++ flatAssems ch := by
  rw [flat]

theorem flatAssems_nil : flatAssems [] = [] := by rw [flatAssems]

theorem flatAssems_inl (pn : String) (xs : List (String ⊕ BTree)) :
    flatAssems (.inl pn :: xs) = flatAssems xs := by rw [flatAssems]

theorem flatAssems_inr (t : BTree) (xs : List (String ⊕ BTree)) :
    flatAssems (.inr t :: xs) = flat t ++ flatAssems xs := by rw [flatAssems]

theorem flatAssems_count (P : String) (ch : List (String ⊕ BTree))
    (hIH : ∀ t, Sum.inr t ∈ ch → (flat t).count P = placements P t) :
    (flatAssems ch).count P = ((subTrees ch).map (placements P)).sum := by
  induction ch with
  | nil => simp [flatAssems_nil, subTrees]
  | cons x xs ih =>
    cases x with
    | inl pn =>
      rw [flatAssems_inl]
      simp only [subTrees, List.filterMap_cons_none]
      exact ih (fun t ht => hIH t (List.mem_cons_of_mem _ ht))
    | inr t =>
      rw [flatAssems_inr, List.count_append]
      simp only [subTrees, List.filterMap_cons_some, List.map_cons, List.sum_cons]
      rw [hIH t (List.mem_cons_self _ _),
        ih (fun t' ht' => hIH t' (List.mem_cons_of_mem _ ht'))]
      simp [subTrees]

/-! ## Python dict lemmas for the rekeyed aggregate -/

theorem dGet_cons (a : Option String) (b : Int) (rest : List (Option String × Int))
    (k : Option String) :
    dGet ((a, b) :: rest) k = if a = k then some b else dGet rest k := by
  by_cases h : a = k <;> simp [dGet, List.find?_cons, h]

theorem dInsert_cons_self (a : Option String) (b v : Int)
    (rest : List (Option String × Int)) :
    dInsert ((a, b) :: rest) a v = (a, v) :: rest := by
  simp [dInsert]

theorem dInsert_cons_ne (a k : Option String) (b v : Int)
    (rest : List (Option String × Int)) (h : ¬ a = k) :
    dInsert ((a, b) :: rest) k v = (a, b) :: dInsert rest k v := by
  simp [dInsert, h]

theorem dGet_dInsert (d : List (Option String × Int)) (k k' : Option String) (v : Int) :
    dGet (dInsert d k v) k' = if k = k' then some v else dGet d k' := by
  induction d with
  | nil =>
    have h0 : dInsert [] k v = [(k, v)] := rfl
    rw [h0, dGet_cons]
  | cons kv rest ih =>
    obtain ⟨a, b⟩ := kv
    by_cases hak : a = k
    · subst hak
      rw [dInsert_cons_self, dGet_cons, dGet_cons]
      by_cases h : a = k' <;> simp [h]
    · rw [dInsert_cons_ne _ _ _ _ _ hak, dGet_cons, dGet_cons, ih]
      by_cases h1 : a = k'
      · by_cases h2 : k = k'
        · exact absurd (h1.trans h2.symm) hak
        · simp [h1, h2]
      · by_cases h2 : k = k' <;> simp [h1, h2]

theorem mem_dInsert_of_mem (d : List (Option String × Int)) (k : Option String) (v : Int)
    (e : Option String × Int) (he : e ∈ d) (hne : e.1 ≠ k) : e ∈ dInsert d k v := by
  induction d with
  | nil => simp at he
  | cons kv rest ih =>
    obtain ⟨a, b⟩ := kv
    by_cases hak : a = k
    · subst hak
      rw [dInsert_cons_self]
      rcases List.mem_cons.1 he with he2 | he2
      · exact absurd (by rw [he2]) hne
      · exact List.mem_cons_of_mem _ he2
    · rw [dInsert_cons_ne _ _ _ _ _ hak]
      rcases List.mem_cons.1 he with he2 | he2
      · exact he2 ▸ List.mem_cons_self _ _
      · exact List.mem_cons_of_mem _ (ih he2)

theorem self_mem_dInsert (d : List (Option String × Int)) (k : Option String) (v : Int) :
    (k, v) ∈ dInsert d k v := by
  induction d with
  | nil => simp [dInsert]
  | cons kv rest ih =>
    obtain ⟨a, b⟩ := kv
    by_cases hak : a = k
    · subst hak
      rw [dInsert_cons_self]
      exact List.mem_cons_self _ _
    · rw [dInsert_cons_ne _ _ _ _ _ hak]
      exact List.mem_cons_of_mem _ ih

theorem mem_of_mem_dInsert (d : List (Option String × Int)) (k : Option String) (v : Int)
    (e : Option String × Int) (he : e ∈ dInsert d k v) : e ∈ d ∨ e = (k, v) := by
  induction d with
  | nil => simpa [dInsert] using he
  | cons kv rest ih =>
    obtain ⟨a, b⟩ := kv
    by_cases hak : a = k
    · subst hak
      rw [dInsert_cons_self] at he
      rcases List.mem_cons.1 he with he2 | he2
      · exact Or.inr he2
      · exact Or.inl (List.mem_cons_of_mem _ he2)
    · rw [dInsert_cons_ne _ _ _ _ _ hak] at he
      rcases List.mem_cons.1 he with he2 | he2
      · exact Or.inl (he2 ▸ List.mem_cons_self _ _)
      · rcases ih he2 with h | h
        · exact Or.inl (List.mem_cons_of_mem _ h)
        · exact Or.inr h

theorem mem_keysO_dInsert_iff (d : List (Option String × Int)) (k k' : Option String) (v : Int) :
    k' ∈ keysO (dInsert d k v) ↔ k' ∈ keysO d ∨ k' = k := by
  induction d with
  | nil => simp [dInsert, keysO]
  | cons kv rest ih =>
    obtain ⟨a, b⟩ := kv
    by_cases hak : a = k
    · subst hak
      rw [dInsert_cons_self]
      simp [keysO]
      tauto
    · rw [dInsert_cons_ne _ _ _ _ _ hak]
      simp only [keysO, List.map_cons, List.mem_cons] at ih ⊢
      tauto

theorem nodup_keysO_dInsert (d : List (Option String × Int)) (k : Option String) (v : Int)
    (h : (keysO d).Nodup) : (keysO (dInsert d k v)).Nodup := by
  induction d with
  | nil => simp [dInsert, keysO]
  | cons kv rest ih =>
    obtain ⟨a, b⟩ := kv
    simp only [keysO, List.map_cons, List.nodup_cons] at h
    by_cases hak : a = k
    · subst hak
      rw [dInsert_cons_self]
      simp only [keysO, List.map_cons, List.nodup_cons]
      exact ⟨h.1, h.2⟩
    · rw [dInsert_cons_ne _ _ _ _ _ hak]
      simp only [keysO, List.map_cons, List.nodup_cons]
      refine ⟨?_, ih h.2⟩
      intro hmem
      rcases (mem_keysO_dInsert_iff rest k a v).1 hmem with h2 | h2
      · exact h.1 h2
      · exact hak h2

theorem dGet_of_mem_nodup (d : List (Option String × Int)) (k : Option String) (v : Int)
    (hn : (keysO d).Nodup) (hm : (k, v) ∈ d) : dGet d k = some v := by
  induction d with
  | nil => simp at hm
  | cons kv rest ih =>
    obtain ⟨a, b⟩ := kv
    simp only [keysO, List.map_cons, List.nodup_cons] at hn
    rcases List.mem_cons.1 hm with h | h
    · rw [← h, dGet_cons, if_pos rfl]
    · have hka : ¬ a = k := by
        intro he
        exact hn.1 (he ▸ List.mem_map_of_mem Prod.fst h)
      rw [dGet_cons, if_neg hka]
      exact ih hn.2 h

theorem rekey_dGet_none (db : List String) :
    ∀ (c : List (String × Int)) (d0 : List (Option String × Int)),
      dGet (c.foldl (fun d kv => dInsert d (partsDB_get db kv.1) kv.2) d0) none =
        match (unknowns db c).getLast? with
        | some kv => some kv.2
        | none => dGet d0 none := by
  intro c
  induction c with
  | nil =>
    intro d0
    simp [unknowns]
  | cons kv rest ih =>
    intro d0
    simp only [List.foldl_cons]
    rw [ih]
    cases hget : partsDB_get db kv.1 with
    | none =>
      have hu : unknowns db (kv :: rest) = kv :: unknowns db rest := by
        simp [unknowns, List.filter_cons, hget]
      rw [hu]
      cases hrest : (unknowns db rest).getLast? with
      | none =>
        have hnil : unknowns db rest = [] := by
          cases hh : unknowns db rest with
          | nil => rfl
          | cons y ys =>
            rw [hh] at hrest
            exact absurd hrest (by simp [List.getLast?])
        rw [hnil]
        simp only [List.getLast?_singleton]
        rw [dGet_dInsert]
        simp
      | some last =>
        have hne : unknowns db rest ≠ [] := by
          intro hh
          rw [hh] at hrest
          simp at hrest
        obtain ⟨y, ys, hys⟩ := List.exists_cons_of_ne_nil hne
        rw [hys] at hrest ⊢
        rw [List.getLast?_cons_cons, hrest]
    | some pn =>
      have hu : unknowns db (kv :: rest) = unknowns db rest := by
        simp [unknowns, List.filter_cons, hget]
      rw [hu]
      cases (unknowns db rest).getLast? with
      | none =>
        rw [dGet_dInsert]
        simp
      | some last => rfl

theorem rekey_keys_shape (db : List String) :
    ∀ (c : List (String × Int)) (d0 : List (Option String × Int)),
      (∀ e ∈ d0, e.1 = none ∨ ∃ pn, pn ∈ db ∧ e.1 = some pn) →
      ∀ e ∈ c.foldl (fun d kv => dInsert d (partsDB_get db kv.1) kv.2) d0,
        e.1 = none ∨ ∃ pn, pn ∈ db ∧ e.1 = some pn := by
  intro c
  induction c with
  | nil =>
    intro d0 h0 e he
    exact h0 e he
  | cons kv rest ih =>
    intro d0 h0 e he
    simp only [List.foldl_cons] at he
    refine ih _ ?_ e he
    intro e' he'
    rcases mem_of_mem_dInsert _ _ _ _ he' with h | h
    · exact h0 e' h
    · rw [h]
      cases hget : partsDB_get db kv.1 with
      | none => exact Or.inl rfl
      | some pn =>
        refine Or.inr ⟨pn, ?_, rfl⟩
        simp only [partsDB_get] at hget
        by_cases hmem : kv.1 ∈ db
        · rw [if_pos hmem] at hget
          injection hget with h2
          exact h2 ▸ hmem
        · rw [if_neg hmem] at hget
          exact absurd hget (by simp)

theorem rekey_keysO_nodup (db : List String) :
    ∀ (c : List (String × Int)) (d0 : List (Option String × Int)),
      (keysO d0).Nodup →
      (keysO (c.foldl (fun d kv => dInsert d (partsDB_get db kv.1) kv.2) d0)).Nodup := by
  intro c
  induction c with
  | nil =>
    intro d0 h0
    exact h0
  | cons kv rest ih =>
    intro d0 h0
    simp only [List.foldl_cons]
    exact ih _ (nodup_keysO_dInsert _ _ _ h0)

theorem foldl_dInsert_preserve (db : List String) :
    ∀ (c : List (String × Int)) (d : List (Option String × Int)) (k : String) (v : Int),
      (some k, v) ∈ d → k ∉ keysOf c →
      (some k, v) ∈ c.foldl (fun d kv => dInsert d (partsDB_get db kv.1) kv.2) d := by
  intro c
  induction c with
  | nil =>
    intro d k v hm _
    exact hm
  | cons kv rest ih =>
    intro d k v hm hk
    simp only [keysOf, List.map_cons, List.mem_cons, not_or] at hk
    simp only [List.foldl_cons]
    refine ih _ k v ?_ (by simpa [keysOf] using hk.2)
    refine mem_dInsert_of_mem _ _ _ _ hm ?_
    intro he
    simp only at he
    cases hget : partsDB_get db kv.1 with
    | none => rw [hget] at he; exact absurd he (by simp)
    | some pn =>
      rw [hget] at he
      injection he with h2
      simp only [partsDB_get] at hget
      by_cases hmem2 : kv.1 ∈ db
      · rw [if_pos hmem2] at hget
        injection hget with h3
        exact hk.1 (by rw [h2, h3])
      · rw [if_neg hmem2] at hget
        exact absurd hget (by simp)

theorem rekey_known_mem (db : List String) (c : List (String × Int)) (k : String) (v : Int)
    (hn : (keysOf c).Nodup) (hm : (k, v) ∈ c) (hdb : k ∈ db) :
    (some k, v) ∈ rekey db c := by
  obtain ⟨c1, c2, hc⟩ := List.append_of_mem hm
  subst hc
  have hk2 : k ∉ keysOf c2 := by
    simp only [keysOf, List.map_append, List.map_cons] at hn
    have h1 := List.Nodup.of_append_right hn
    simp only [List.nodup_cons] at h1
    simpa [keysOf] using h1.1
  unfold rekey
  rw [List.foldl_append, List.foldl_cons]
  have hstep : partsDB_get db k = some k := by simp [partsDB_get, hdb]
  rw [hstep]
  exact foldl_dInsert_preserve db c2 _ k v (self_mem_dInsert _ _ _) hk2

/-! ## Graph-builder lemmas -/

theorem count_snoc {α : Type} [DecidableEq α] (l : List α) (x y : α) :
    (l ++ [x]).count y = l.count y + (if x = y then 1 else 0) := by
  by_cases h : x = y <;> simp [List.count_append, List.count_cons, h]

theorem mcount_cons (r : PRow) (rs : List PRow) (P : String) :
    mcount (r :: rs) P = (if r.PN = P then 1 else 0) + mcount rs P := by
  by_cases h : r.PN = P <;> simp [mcount, List.countP_cons, h] <;> omega

theorem mentions_iff (rows : List PRow) (P : String) :
    mentions rows P = true ↔ 0 < mcount rows P := by
  simp [mentions, mcount, List.countP_pos, List.any_eq_true]

theorem lookup_append (l1 l2 : List (String × String)) (k : String) :
    (l1 ++ l2).lookup k =
      match l1.lookup k with
      | some v => some v
      | none => l2.lookup k := by
  induction l1 with
  | nil => simp
  | cons kv rest ih =>
    obtain ⟨a, b⟩ := kv
    simp only [List.cons_append, List.lookup]
    cases hba : (k == a)
    · simp only [hba]
      exact ih
    · simp only [hba]

theorem lookup_map_const (l : List String) (A k : String) :
    (l.map (fun p => (p, A))).lookup k = if k ∈ l then some A else none := by
  induction l with
  | nil => simp
  | cons a rest ih =>
    simp only [List.map_cons, List.lookup]
    cases hba : (k == a)
    · simp only [hba]
      rw [ih]
      have hk : ¬ k = a := by simpa using hba
      by_cases hm : k ∈ rest
      · rw [if_pos hm, if_pos (List.mem_cons.2 (Or.inr hm))]
      · rw [if_neg hm, if_neg (by simp [hk, hm])]
    · simp only [hba]
      have hk : k = a := by simpa using hba
      rw [if_pos (by simp [hk])]

/-! The row loop seen from one part number `P` that is in the parts
database and is not an assembly key. Two regimes, depending on whether the
snapshot of part parents already places `P`: if not, every `P`-row appends
the terminal `Item` (and records it in `newP`); if so, every `P`-row
appends an `ItemLink`. -/

theorem procRows_spec_fresh (keys db : List String) (pPsnap : List (String × String))
    (apn P : String) (hPk : P ∉ keys) (hl0 : pPsnap.lookup P = none) :
    ∀ (rows : List PRow) (aP : List (String × String)) (acc : List Node) (newP : List String)
      (aP' : List (String × String)) (ch : List Node) (newP' : List String),
      procRows keys db pPsnap apn rows aP acc newP = .ok (aP', ch, newP') →
      ch.count (.item P) = acc.count (.item P) + mcount rows P
      ∧ ch.count (.itemLink P) = acc.count (.itemLink P)
      ∧ newP'.count P = newP.count P + mcount rows P := by
  intro rows
  induction rows with
  | nil =>
    intro aP acc newP aP' ch newP' h
    simp only [procRows] at h
    injection h with h2
    have h4 : ch = acc := congrArg (fun x => x.2.1) h2.symm
    have h5 : newP' = newP := congrArg (fun x => x.2.2) h2.symm
    subst h4
    subst h5
    simp [mcount]
  | cons r rs ih =>
    intro aP acc newP aP' ch newP' h
    simp only [procRows] at h
    by_cases hk : r.PN ∈ keys
    · rw [if_pos hk] at h
      have hrP : ¬ r.PN = P := fun he => hPk (he ▸ hk)
      cases hl : aP.lookup r.PN with
      | some par =>
        simp only [hl] at h
        obtain ⟨h1, h2, h3⟩ := ih _ _ _ _ _ _ h
        rw [count_snoc] at h1 h2
        rw [mcount_cons, if_neg hrP]
        refine ⟨?_, ?_, ?_⟩
        · rw [h1]
          simp
        · rw [h2]
          simp
        · rw [h3]
          omega
      | none =>
        simp only [hl] at h
        by_cases hloop : loopCheck aP r.PN apn
        · rw [if_pos hloop] at h
          exact absurd h (by simp)
        · rw [if_neg hloop] at h
          obtain ⟨h1, h2, h3⟩ := ih _ _ _ _ _ _ h
          rw [count_snoc] at h1 h2
          rw [mcount_cons, if_neg hrP]
          refine ⟨?_, ?_, ?_⟩
          · rw [h1]
            simp
          · rw [h2]
            simp
          · rw [h3]
            omega
    · rw [if_neg hk] at h
      cases hg : partsDB_get db r.PN with
      | none =>
        simp only [hg] at h
        exact absurd h (by simp)
      | some p =>
        simp only [hg] at h
        have hp : p = r.PN := by
          simp only [partsDB_get] at hg
          by_cases hmem : r.PN ∈ db
          · rw [if_pos hmem] at hg
            injection hg with h2
            exact h2.symm
          · rw [if_neg hmem] at hg
            exact absurd hg (by simp)
        subst hp
        by_cases hpP : r.PN = P
        · rw [hpP] at h
          rw [hl0] at h
          obtain ⟨h1, h2, h3⟩ := ih _ _ _ _ _ _ h
          rw [count_snoc] at h1 h2
          rw [count_snoc] at h3
          rw [mcount_cons, if_pos hpP]
          refine ⟨?_, ?_, ?_⟩
          · rw [h1]
            simp
            omega
          · rw [h2]
            simp
          · rw [h3]
            simp
            omega
        · cases hl : pPsnap.lookup r.PN with
          | some par =>
            simp only [hl] at h
            obtain ⟨h1, h2, h3⟩ := ih _ _ _ _ _ _ h
            rw [count_snoc] at h1 h2
            rw [mcount_cons, if_neg hpP]
            have hne : ¬ Node.itemLink r.PN = Node.itemLink P := by
              intro he
              injection he with h4
              exact hpP h4
            refine ⟨?_, ?_, ?_⟩
            · rw [h1]
              simp
            · rw [h2, if_neg hne]
              simp
            · rw [h3]
              omega
          | none =>
            simp only [hl] at h
            obtain ⟨h1, h2, h3⟩ := ih _ _ _ _ _ _ h
            rw [count_snoc] at h1 h2
            rw [count_snoc] at h3
            rw [mcount_cons, if_neg hpP]
            have hne : ¬ Node.item r.PN = Node.item P := by
              intro he
              injection he with h4
              exact hpP h4
            refine ⟨?_, ?_, ?_⟩
            · rw [h1, if_neg hne]
              simp
            · rw [h2]
              simp
            · rw [h3, if_neg hpP]
              omega

theorem procRows_spec_placed (keys db : List String) (pPsnap : List (String × String))
    (apn P par0 : String) (hPk : P ∉ keys) (hl0 : pPsnap.lookup P = some par0) :
    ∀ (rows : List PRow) (aP : List (String × String)) (acc : List Node) (newP : List String)
      (aP' : List (String × String)) (ch : List Node) (newP' : List String),
      procRows keys db pPsnap apn rows aP acc newP = .ok (aP', ch, newP') →
      ch.count (.item P) = acc.count (.item P)
      ∧ ch.count (.itemLink P) = acc.count (.itemLink P) + mcount rows P
      ∧ newP'.count P = newP.count P := by
  intro rows
  induction rows with
  | nil =>
    intro aP acc newP aP' ch newP' h
    simp only [procRows] at h
    injection h with h2
    have h4 : ch = acc := congrArg (fun x => x.2.1) h2.symm
    have h5 : newP' = newP := congrArg (fun x => x.2.2) h2.symm
    subst h4
    subst h5
    simp [mcount]
  | cons r rs ih =>
    intro aP acc newP aP' ch newP' h
    simp only [procRows] at h
    by_cases hk : r.PN ∈ keys
    · rw [if_pos hk] at h
      have hrP : ¬ r.PN = P := fun he => hPk (he ▸ hk)
      cases hl : aP.lookup r.PN with
      | some par =>
        simp only [hl] at h
        obtain ⟨h1, h2, h3⟩ := ih _ _ _ _ _ _ h
        rw [count_snoc] at h1 h2
        rw [mcount_cons, if_neg hrP]
        refine ⟨?_, ?_, ?_⟩
        · rw [h1]
          simp
        · rw [h2]
          simp
        · exact h3
      | none =>
        simp only [hl] at h
        by_cases hloop : loopCheck aP r.PN apn
        · rw [if_pos hloop] at h
          exact absurd h (by simp)
        · rw [if_neg hloop] at h
          obtain ⟨h1, h2, h3⟩ := ih _ _ _ _ _ _ h
          rw [count_snoc] at h1 h2
          rw [mcount_cons, if_neg hrP]
          refine ⟨?_, ?_, ?_⟩
          · rw [h1]
            simp
          · rw [h2]
            simp
          · exact h3
    · rw [if_neg hk] at h
      cases hg : partsDB_get db r.PN with
      | none =>
        simp only [hg] at h
        exact absurd h (by simp)
      | some p =>
        simp only [hg] at h
        have hp : p = r.PN := by
          simp only [partsDB_get] at hg
          by_cases hmem : r.PN ∈ db
          · rw [if_pos hmem] at hg
            injection hg with h2
            exact h2.symm
          · rw [if_neg hmem] at hg
            exact absurd hg (by simp)
        subst hp
        by_cases hpP : r.PN = P
        · rw [hpP] at h
          rw [hl0] at h
          obtain ⟨h1, h2, h3⟩ := ih _ _ _ _ _ _ h
          rw [count_snoc] at h1 h2
          rw [mcount_cons, if_pos hpP]
          refine ⟨?_, ?_, ?_⟩
          · rw [h1]
            simp
          · rw [h2]
            simp
            omega
          · exact h3
        · cases hl : pPsnap.lookup r.PN with
          | some par =>
            simp only [hl] at h
            obtain ⟨h1, h2, h3⟩ := ih _ _ _ _ _ _ h
            rw [count_snoc] at h1 h2
            rw [mcount_cons, if_neg hpP]
            have hne : ¬ Node.itemLink r.PN = Node.itemLink P := by
              intro he
              injection he with h4
              exact hpP h4
            refine ⟨?_, ?_, ?_⟩
            · rw [h1]
              simp
            · rw [h2, if_neg hne]
              simp
            · exact h3
          | none =>
            simp only [hl] at h
            obtain ⟨h1, h2, h3⟩ := ih _ _ _ _ _ _ h
            rw [count_snoc] at h1 h2
            rw [count_snoc] at h3
            rw [mcount_cons, if_neg hpP]
            have hne : ¬ Node.item r.PN = Node.item P := by
              intro he
              injection he with h4
              exact hpP h4
            refine ⟨?_, ?_, ?_⟩
            · rw [h1, if_neg hne]
              simp
            · rw [h2]
              simp
            · rw [h3, if_neg hpP]
              simp

theorem except_bind_ok {ε α β : Type} (a : α) (f : α → Except ε β) :
    ((Except.ok a : Except ε α) >>= f) = f a := rfl

theorem except_bind_error {ε α β : Type} (e : ε) (f : α → Except ε β) :
    ((Except.error e : Except ε α) >>= f) = Except.error e := rfl

theorem except_map_ok {ε α β : Type} (a : α) (f : α → β) :
    (Except.ok a : Except ε α).map f = Except.ok (f a) := rfl

theorem except_map_error {ε α β : Type} (e : ε) (f : α → β) :
    (Except.error e : Except ε α).map f = Except.error e := rfl

theorem except_pure_eq {ε α : Type} (a : α) : (pure a : Except ε α) = Except.ok a := rfl

theorem procTable_ok_elim (keys db : List String) (st : St) (entry : String × List PRow)
    (st' : St) (h : procTable keys db st entry = .ok st') :
    ∃ aP' ch newP,
      procRows keys db st.pP entry.1 entry.2 st.aP [] [] = .ok (aP', ch, newP)
      ∧ newP.Nodup
      ∧ st' = ⟨aP', st.pP ++ newP.map (fun p => (p, entry.1)), st.kids ++ [(entry.1, ch)]⟩ := by
  unfold procTable at h
  cases hr : procRows keys db st.pP entry.1 entry.2 st.aP [] [] with
  | error e =>
    rw [hr] at h
    exact absurd h (by simp)
  | ok res =>
    obtain ⟨aP', ch, newP⟩ := res
    rw [hr] at h
    simp only at h
    by_cases hn : newP.Nodup
    · rw [if_pos hn] at h
      injection h with h2
      exact ⟨aP', ch, newP, rfl, hn, h2.symm⟩
    · rw [if_neg hn] at h
      exact absurd h (by simp)

theorem procTable_spec_fresh (keys db : List String) (P : String) (hPk : P ∉ keys)
    (st : St) (A : String) (tA : List PRow) (st' : St)
    (h : procTable keys db st (A, tA) = .ok st') (hl0 : st.pP.lookup P = none) :
    ∃ ch, st'.kids = st.kids ++ [(A, ch)]
      ∧ ch.count (.item P) = mcount tA P
      ∧ mcount tA P ≤ 1
      ∧ ch.count (.itemLink P) = 0
      ∧ st'.pP.lookup P = (if mentions tA P then some A else none) := by
  obtain ⟨aP', ch, newP, hr, hn, hst⟩ := procTable_ok_elim keys db st (A, tA) st' h
  obtain ⟨h1, h2, h3⟩ := procRows_spec_fresh keys db st.pP A P hPk hl0 tA _ _ _ _ _ _ hr
  have hcount : newP.count P = mcount tA P := by
    rw [h3]
    simp
  have hle : mcount tA P ≤ 1 := by
    rw [← hcount]
    exact List.nodup_iff_count_le_one.1 hn P
  refine ⟨ch, by rw [hst], by rw [h1]; simp, hle, by rw [h2]; simp, ?_⟩
  rw [hst]
  show (st.pP ++ newP.map (fun p => (p, A))).lookup P = _
  rw [lookup_append, hl0, lookup_map_const]
  have hmem : P ∈ newP ↔ mentions tA P = true := by
    rw [mentions_iff, ← hcount]
    exact ⟨fun hm => List.count_pos_iff_mem.2 hm, fun hp => List.count_pos_iff_mem.1 hp⟩
  by_cases hm : mentions tA P
  · rw [if_pos (hmem.2 hm), if_pos hm]
  · rw [if_neg (fun hx => hm (hmem.1 hx)), if_neg hm]

theorem procTable_spec_placed (keys db : List String) (P par : String) (hPk : P ∉ keys)
    (st : St) (A : String) (tA : List PRow) (st' : St)
    (h : procTable keys db st (A, tA) = .ok st') (hl0 : st.pP.lookup P = some par) :
    ∃ ch, st'.kids = st.kids ++ [(A, ch)]
      ∧ ch.count (.item P) = 0
      ∧ ch.count (.itemLink P) = mcount tA P
      ∧ st'.pP.lookup P = some par := by
  obtain ⟨aP', ch, newP, hr, hn, hst⟩ := procTable_ok_elim keys db st (A, tA) st' h
  obtain ⟨h1, h2, h3⟩ := procRows_spec_placed keys db st.pP A P par hPk hl0 tA _ _ _ _ _ _ hr
  refine ⟨ch, by rw [hst], by rw [h1]; simp, by rw [h2]; simp, ?_⟩
  rw [hst]
  show (st.pP ++ newP.map (fun p => (p, A))).lookup P = _
  rw [lookup_append, hl0]

theorem go_placed (keys db : List String) (P par : String) (hPk : P ∉ keys) :
    ∀ (L : List (String × List PRow)) (st0 st : St),
      L.foldlM (procTable keys db) st0 = .ok st →
      st0.pP.lookup P = some par →
      st.pP.lookup P = some par
      ∧ ∃ post, st.kids = st0.kids ++ post
        ∧ List.Forall₂ (fun (e : String × List PRow) (ke : String × List Node) =>
            ke.1 = e.1 ∧ ke.2.count (Node.item P) = 0
            ∧ ke.2.count (Node.itemLink P) = mcount e.2 P) L post := by
  intro L
  induction L with
  | nil =>
    intro st0 st h hl
    simp only [List.foldlM_nil] at h
    injection h with h2
    subst h2
    exact ⟨hl, [], by simp, List.Forall₂.nil⟩
  | cons e rest ih =>
    intro st0 st h hl
    obtain ⟨B, tB⟩ := e
    rw [List.foldlM_cons] at h
    cases hstep : procTable keys db st0 (B, tB) with
    | error err =>
      rw [hstep, except_bind_error] at h
      exact absurd h (by simp)
    | ok st1 =>
      rw [hstep, except_bind_ok] at h
      obtain ⟨chB, hkids1, hitem, hlink, hpP1⟩ :=
        procTable_spec_placed keys db P par hPk st0 B tB st1 hstep hl
      obtain ⟨hlfin, post, hkids2, hfa⟩ := ih st1 st h hpP1
      refine ⟨hlfin, (B, chB) :: post, ?_, ?_⟩
      · rw [hkids2, hkids1]
        simp
      · exact List.Forall₂.cons ⟨rfl, hitem, hlink⟩ hfa

theorem go_nomention (keys db : List String) (P : String) (hPk : P ∉ keys) :
    ∀ (L : List (String × List PRow)) (st0 st : St),
      L.foldlM (procTable keys db) st0 = .ok st →
      st0.pP.lookup P = none →
      (∀ e ∈ L, mentions e.2 P = false) →
      st.pP.lookup P = none
      ∧ ∃ post, st.kids = st0.kids ++ post
        ∧ List.Forall₂ (fun (e : String × List PRow) (ke : String × List Node) =>
            ke.1 = e.1 ∧ ke.2.count (Node.item P) = 0
            ∧ ke.2.count (Node.itemLink P) = 0) L post := by
  intro L
  induction L with
  | nil =>
    intro st0 st h hl _
    simp only [List.foldlM_nil] at h
    injection h with h2
    subst h2
    exact ⟨hl, [], by simp, List.Forall₂.nil⟩
  | cons e rest ih =>
    intro st0 st h hl hnm
    obtain ⟨B, tB⟩ := e
    rw [List.foldlM_cons] at h
    cases hstep : procTable keys db st0 (B, tB) with
    | error err =>
      rw [hstep, except_bind_error] at h
      exact absurd h (by simp)
    | ok st1 =>
      rw [hstep, except_bind_ok] at h
      obtain ⟨chB, hkids1, hitem, _, hlink, hpP1⟩ :=
        procTable_spec_fresh keys db P hPk st0 B tB st1 hstep hl
      have hm : mentions tB P = false := hnm (B, tB) (List.mem_cons_self _ _)
      have hmc : mcount tB P = 0 := by
        by_cases hz : 0 < mcount tB P
        · exact absurd ((mentions_iff tB P).2 hz) (by simp [hm])
        · omega
      rw [hm] at hpP1
      simp only [Bool.false_eq_true, if_false] at hpP1
      obtain ⟨hlfin, post, hkids2, hfa⟩ :=
        ih st1 st h hpP1 (fun e he => hnm e (List.mem_cons_of_mem _ he))
      refine ⟨hlfin, (B, chB) :: post, ?_, ?_⟩
      · rw [hkids2, hkids1]
        simp
      · exact List.Forall₂.cons ⟨rfl, by rw [hitem, hmc], hlink⟩ hfa

theorem forall₂_right_mem {α β : Type} {R : α → β → Prop} :
    ∀ {l1 : List α} {l2 : List β}, List.Forall₂ R l1 l2 → ∀ b ∈ l2, ∃ a ∈ l1, R a b := by
  intro l1 l2 h
  induction h with
  | nil => simp
  | cons hr _ ih =>
    intro b hb
    rcases List.mem_cons.1 hb with hb | hb
    · exact ⟨_, List.mem_cons_self _ _, hb ▸ hr⟩
    · obtain ⟨a, ha, har⟩ := ih b hb
      exact ⟨a, List.mem_cons_of_mem _ ha, har⟩

theorem go_first (keys db : List String) (P : String) (hPk : P ∉ keys) :
    ∀ (L1 : List (String × List PRow)) (A : String) (tA : List PRow)
      (L2 : List (String × List PRow)) (st0 st : St),
      (L1 ++ (A, tA) :: L2).foldlM (procTable keys db) st0 = .ok st →
      st0.pP.lookup P = none →
      (∀ e ∈ L1, mentions e.2 P = false) →
      mentions tA P = true →
      st.pP.lookup P = some A
      ∧ ∃ post1 chA post2,
          st.kids = st0.kids ++ post1 ++ [(A, chA)] ++ post2
          ∧ List.Forall₂ (fun (e : String × List PRow) (ke : String × List Node) =>
              ke.1 = e.1 ∧ ke.2.count (Node.item P) = 0
              ∧ ke.2.count (Node.itemLink P) = 0) L1 post1
          ∧ chA.count (Node.item P) = 1 ∧ chA.count (Node.itemLink P) = 0
          ∧ List.Forall₂ (fun (e : String × List PRow) (ke : String × List Node) =>
              ke.1 = e.1 ∧ ke.2.count (Node.item P) = 0
              ∧ ke.2.count (Node.itemLink P) = mcount e.2 P) L2 post2 := by
  intro L1 A tA L2 st0 st h hl0 hno hA
  rw [List.foldlM_append] at h
  cases hf1 : L1.foldlM (procTable keys db) st0 with
  | error err =>
    rw [hf1, except_bind_error] at h
    exact absurd h (by simp)
  | ok st1 =>
    rw [hf1, except_bind_ok] at h
    obtain ⟨hl1, post1, hkids1, hfa1⟩ := go_nomention keys db P hPk L1 st0 st1 hf1 hl0 hno
    rw [List.foldlM_cons] at h
    cases hf2 : procTable keys db st1 (A, tA) with
    | error err =>
      rw [hf2, except_bind_error] at h
      exact absurd h (by simp)
    | ok st2 =>
      rw [hf2, except_bind_ok] at h
      obtain ⟨chA, hkids2, hitem, hle, hlink, hpP2⟩ :=
        procTable_spec_fresh keys db P hPk st1 A tA st2 hf2 hl1
      rw [if_pos hA] at hpP2
      have hone : mcount tA P = 1 := by
        have := (mentions_iff tA P).1 hA
        omega
      obtain ⟨hlfin, post2, hkids3, hfa2⟩ := go_placed keys db P A hPk L2 st2 st h hpP2
      refine ⟨hlfin, post1, chA, post2, ?_, hfa1, by rw [hitem, hone], hlink, hfa2⟩
      rw [hkids3, hkids2, hkids1]

/-! ## Shape of the summary table -/

theorem forall₂_trans {α β γ : Type} {R1 : α → β → Prop} {R2 : β → γ → Prop}
    {R3 : α → γ → Prop} (hcomp : ∀ a b c, R1 a b → R2 b c → R3 a c) :
    ∀ {l1 : List α} {l2 : List β} {l3 : List γ},
      List.Forall₂ R1 l1 l2 → List.Forall₂ R2 l2 l3 → List.Forall₂ R3 l1 l3 := by
  intro l1 l2 l3 h1
  induction h1 generalizing l3 with
  | nil =>
    intro h2
    cases h2
    exact List.Forall₂.nil
  | cons hr _ ih =>
    intro h2
    cases h2 with
    | cons hr2 htail =>
      exact List.Forall₂.cons (hcomp _ _ _ hr hr2) (ih htail)

theorem zipWith_col_shape (col : String) :
    ∀ (db : List PartRow) (cells : List Cell), cells.length = db.length →
      List.Forall₂ (fun (orig new : PartRow) => new.PN = orig.PN
          ∧ ∃ c1, new.attrs = orig.attrs ++ [(col, c1)]) db
        (db.zipWith (fun row cell => { row with attrs := row.attrs ++ [(col, cell)] }) cells) := by
  intro db
  induction db with
  | nil =>
    intro cells _
    simp [List.zipWith]
  | cons row rest ih =>
    intro cells hlen
    cases cells with
    | nil => simp at hlen
    | cons c cs =>
      simp only [List.zipWith]
      exact List.Forall₂.cons ⟨rfl, c, rfl⟩ (ih cs (by simpa using hlen))

theorem mapM_col_shape (col : String) (g : PartRow → Except PyErr Cell) :
    ∀ (df df' : List PartRow),
      df.mapM (fun row => (g row).map (fun v =>
        { row with attrs := row.attrs ++ [(col, v)] })) = .ok df' →
      List.Forall₂ (fun (orig new : PartRow) => new.PN = orig.PN
        ∧ ∃ c1, new.attrs = orig.attrs ++ [(col, c1)]) df df' := by
  intro df
  induction df with
  | nil =>
    intro df' h
    simp only [List.mapM_nil] at h
    injection h with h2
    subst h2
    exact List.Forall₂.nil
  | cons row rest ih =>
    intro df' h
    rw [List.mapM_cons] at h
    cases hg : g row with
    | error e =>
      rw [hg, except_map_error, except_bind_error] at h
      exact absurd h (by simp)
    | ok v =>
      rw [hg, except_map_ok, except_bind_ok] at h
      cases hrest : rest.mapM (fun row => (g row).map (fun v =>
          { row with attrs := row.attrs ++ [(col, v)] })) with
      | error e =>
        rw [hrest, except_bind_error] at h
        exact absurd h (by simp)
      | ok df2 =>
        rw [hrest, except_bind_ok, except_pure_eq] at h
        injection h with h2
        subst h2
        exact List.Forall₂.cons ⟨rfl, v, rfl⟩ (ih df2 hrest)

theorem totalCells_length (counts : List (String × Int)) (db : List PartRow) :
    (totalCells counts db).length = db.length := by
  unfold totalCells
  by_cases h : (db.map (fun row => counts.find? (fun kv => kv.1 == row.PN))).all Option.isNone <;>
    simp [h]

theorem summary_shape (db : List PartRow) (t : BTree) (df' : List PartRow)
    (h : summary (some db) t = .ok df') :
    List.Forall₂ (fun (orig new : PartRow) => new.PN = orig.PN
      ∧ ∃ c1 c2 c3, new.attrs = orig.attrs ++
          [(colTotal, c1), (colPurchase, c2), (colSubtotal, c3)]) db df' := by
  unfold summary at h
  cases hagg : aggregate t with
  | none =>
    rw [hagg] at h
    exact absurd h (by simp)
  | some c =>
    rw [hagg] at h
    simp only at h
    by_cases hnone : (rekey (db.map PartRow.PN) c).any (fun kv => kv.1.isNone)
    · rw [if_pos hnone] at h
      exact absurd h (by simp)
    · rw [if_neg hnone] at h
      cases h2 : (db.zipWith (fun row cell => { row with attrs := row.attrs ++ [(colTotal, cell)] })
          (totalCells ((rekey (db.map PartRow.PN) c).filterMap
            (fun kv => kv.1.map (fun pn => (pn, kv.2)))) db)).mapM
          (fun row => (packages_to_buy row).map (fun pq =>
            { row with attrs := row.attrs ++ [(colPurchase, pq)] })) with
      | error e =>
        simp only [h2] at h
        exact absurd h (by simp)
      | ok df2 =>
        simp only [h2] at h
        cases h3 : df2.mapM (fun row => (subtotalF row).map (fun st =>
            { row with attrs := row.attrs ++ [(colSubtotal, st)] })) with
        | error e =>
          simp only [h3] at h
          exact absurd h (by simp)
        | ok df3 =>
          simp only [h3] at h
          injection h with h4
          subst h4
          have hf1 := zipWith_col_shape colTotal db
            (totalCells ((rekey (db.map PartRow.PN) c).filterMap
              (fun kv => kv.1.map (fun pn => (pn, kv.2)))) db)
            (totalCells_length _ _)
          have hf2 := mapM_col_shape colPurchase packages_to_buy _ _ h2
          have hf3 := mapM_col_shape colSubtotal subtotalF _ _ h3
          have h12 : List.Forall₂ (fun (orig new : PartRow) => new.PN = orig.PN
              ∧ ∃ c1 c2, new.attrs = orig.attrs ++ [(colTotal, c1), (colPurchase, c2)]) db df2 :=
            forall₂_trans
              (fun a b c hab hbc => by
                obtain ⟨hpn1, c1, hats1⟩ := hab
                obtain ⟨hpn2, c2, hats2⟩ := hbc
                exact ⟨hpn2.trans hpn1, c1, c2, by rw [hats2, hats1]; simp⟩) hf1 hf2
          exact forall₂_trans
            (fun a b c hab hbc => by
              obtain ⟨hpn1, c1, c2, hats1⟩ := hab
              obtain ⟨hpn2, c3, hats2⟩ := hbc
              exact ⟨hpn2.trans hpn1, c1, c2, c3, by rw [hats2, hats1]; simp⟩) h12 hf3

/-! # Claim theorems -/

/-- C1: for every parts database and map of assembly row tables whose row
processing completes (`rootCount … = some n`, i.e. no row-level exception
aborted the loop first), `parse_parent_child` returns a root BOM iff
exactly one assembly is left without an assigned parent; zero unparented
assemblies raise `Exception('No root BOM found')` and more than one raise
`Exception('Singular root BOM not found')`, aborting construction with no
tree returned. -/
theorem parse_root_iff (db : List String) (asm : List (String × List PRow)) (n : Nat)
    (h : rootCount db asm = some n) :
    ((∃ r, parse_parent_child db asm = .ok r) ↔ n = 1)
    ∧ (n = 0 → parse_parent_child db asm = .error .noRoot)
    ∧ (1 < n → parse_parent_child db asm = .error .multiRoot) := by
  unfold rootCount at h
  cases hp : processAll db asm with
  | error e =>
    rw [hp] at h
    exact absurd h (by simp [Except.toOption])
  | ok st =>
    rw [hp] at h
    simp only [Except.toOption, Option.map_some'] at h
    injection h with h2
    unfold parse_parent_child
    simp only [hp]
    have hlen : ((asm.filter (fun a => (st.aP.lookup a.1).isNone)).map Prod.fst).length = n := by
      rw [List.length_map]
      exact h2
    cases hroots : (asm.filter (fun a => (st.aP.lookup a.1).isNone)).map Prod.fst with
    | nil =>
      rw [hroots] at hlen
      simp only [List.length_nil] at hlen
      simp only [hroots]
      refine ⟨?_, fun _ => trivial, fun hgt => by omega⟩
      constructor
      · intro ⟨r, hr⟩
        exact absurd hr (by simp)
      · intro h1
        omega
    | cons r rest =>
      cases rest with
      | nil =>
        rw [hroots] at hlen
        simp only [List.length_cons, List.length_nil] at hlen
        simp only [hroots]
        refine ⟨?_, fun h0 => by omega, fun hgt => by omega⟩
        constructor
        · intro _
          omega
        · intro _
          exact ⟨(r, st), rfl⟩
      | cons r2 rest2 =>
        rw [hroots] at hlen
        simp only [List.length_cons] at hlen
        simp only [hroots]
        refine ⟨?_, fun h0 => by omega, fun _ => trivial⟩
        constructor
        · intro ⟨rr, hr⟩
          exact absurd hr (by simp)
        · intro h1
          omega

/-- Witness for C1 at a two-level input with a unique root. -/
theorem parse_root_iff_witness :
    rootCount (["P1"]) ([("Top", [⟨"Sub", 1⟩, ⟨"P1", 2⟩]), ("Sub", [⟨"P1", 1⟩])]) = some 1
    ∧ ∃ r, parse_parent_child (["P1"])
        ([("Top", [⟨"Sub", 1⟩, ⟨"P1", 2⟩]), ("Sub", [⟨"P1", 1⟩])]) = .ok r :=
  ⟨by decide, (parse_root_iff (["P1"])
    ([("Top", [⟨"Sub", 1⟩, ⟨"P1", 2⟩]), ("Sub", [⟨"P1", 1⟩])]) 1 (by decide)).1.mpr rfl⟩

/-- C3 (code bug): a row whose part number is found neither among the
assembly keys nor in the parts database does NOT get skipped with a
warning: `PartsDB.get` returns `None` (it never raises the `IndexError`
the handler waits for), so `part_.parent` raises `AttributeError` on
`None` and construction aborts. The second conjunct shows the same input
minus the bad row builds fine, which is what the claim (and the spec's
intent, visible in the dead `print('Unable to find part …'); continue`
handler) expected for the full input. -/
theorem unknown_part_row_aborts :
    parse_parent_child (["P1"]) ([("A", [⟨"P1", 1⟩, ⟨"MISSING", 1⟩])]) = .error .attributeNone
    ∧ parse_parent_child (["P1"]) ([("A", [⟨"P1", 1⟩])]) =
        .ok (("A"), ⟨[], [("P1", "A")], [(("A"), [Node.item ("P1")])]⟩) := by
  decide

/-- C6: `flat` has exactly one entry per placement: for every resolved BOM
node the number of occurrences of a part number in `flat` equals the
number of part placements of that part number in the tree (direct parts of
the node first, then each direct sub-assembly's flattened parts in child
order, recursively), so a part reachable through two different assemblies
appears twice. -/
theorem flat_count_placements (t : BTree) (P : String) :
    (flat t).count P = placements P t := by
  induction t using btree_ind with
  | _ pn df ch ihsub =>
    rw [flat_mk, placements_mk, List.count_append, placementsCh_decomp,
      flatAssems_count P ch ihsub]
    rfl

/-- C7 counterexample: a non-numeric (string) package quantity does not
yield `Purchase QTY = 0` — dividing by a string raises `TypeError`, which
the `except ValueError` handler does not catch, so the exception
propagates to the caller instead of producing `0`. -/
theorem pkg_nonnumeric_cx :
    packages_to_buy ⟨("P"), [(colTotal, .num 5), (colPkgQty, .str ("abc"))]⟩
      = .error .typeError
    ∧ ∀ v, Except.error PyErr.typeError ≠ (Except.ok v : Except PyErr Cell) := by
  constructor
  · decide
  · intro v
    simp

/-- C7 amended: Purchase QTY equals Total QTY unchanged when the Pkg QTY
column is absent or null (`NaN`/`None`); equals `ceil(Total QTY / Pkg QTY)`
when Pkg QTY is a nonzero number and Total QTY is numeric; equals `0`
whenever the ceiling raises the caught `ValueError`, i.e. whenever the
division result is `NaN` — a null (`NaN`) Total QTY over any numeric
Pkg QTY, or a zero total over a zero package quantity (`0/0`). A
non-numeric (string) Pkg QTY raises `TypeError`, and a nonzero numeric
Total QTY over a zero Pkg QTY raises `OverflowError` — the numpy division
by zero warns and yields `±inf`, which `math.ceil` refuses — and both
propagate to the caller (only `ValueError` is caught). -/
theorem purchase_qty_cases (row : PartRow) (total : Cell)
    (hT : getCol row colTotal = some total) :
    (getCol row colPkgQty = none → packages_to_buy row = .ok total)
    ∧ (getCol row colPkgQty = some .nan → packages_to_buy row = .ok total)
    ∧ (getCol row colPkgQty = some .pynone → packages_to_buy row = .ok total)
    ∧ (∀ a b, total = .num a → getCol row colPkgQty = some (.num b) → b ≠ 0 →
        packages_to_buy row = .ok (.num (⌈a / b⌉ : ℚ)))
    ∧ (∀ b, total = .nan → getCol row colPkgQty = some (.num b) →
        packages_to_buy row = .ok (.num 0))
    ∧ (∀ s, getCol row colPkgQty = some (.str s) → packages_to_buy row = .error .typeError)
    ∧ (∀ a, total = .num a → a ≠ 0 → getCol row colPkgQty = some (.num 0) →
        packages_to_buy row = .error .overflowError)
    ∧ (total = .num 0 → getCol row colPkgQty = some (.num 0) →
        packages_to_buy row = .ok (.num 0)) := by
  refine ⟨?_, ?_, ?_, ?_, ?_, ?_, ?_, ?_⟩
  · intro hp
    unfold packages_to_buy
    rw [hp, hT]
  · intro hp
    unfold packages_to_buy
    rw [hp, hT]
    simp [isnull]
  · intro hp
    unfold packages_to_buy
    rw [hp, hT]
    simp [isnull]
  · intro a b ha hp hb
    subst ha
    unfold packages_to_buy
    rw [hp, hT]
    simp only [isnull, Bool.false_eq_true, if_false]
    simp [pyDiv, pyCeil, hb]
  · intro b ha hp
    subst ha
    unfold packages_to_buy
    rw [hp, hT]
    simp only [isnull, Bool.false_eq_true, if_false]
    by_cases hb : b = 0 <;> simp [pyDiv, pyCeil, hb]
  · intro s hp
    unfold packages_to_buy
    rw [hp, hT]
    cases total <;> simp [isnull, pyDiv]
  · intro a ha hne hp
    subst ha
    unfold packages_to_buy
    rw [hp, hT]
    simp [isnull, pyDiv, pyCeil, hne]
  · intro ha hp
    subst ha
    unfold packages_to_buy
    rw [hp, hT]
    simp [isnull, pyDiv, pyCeil]

/-- Witness for C7 amended: a concrete row with Total QTY 7 and Pkg QTY 2
purchases `ceil(7/2)` packages. -/
theorem purchase_qty_cases_witness :
    packages_to_buy ⟨("P"), [(colTotal, .num 7), (colPkgQty, .num 2)]⟩
      = .ok (.num (⌈(7 : ℚ) / 2⌉ : ℚ)) :=
  (purchase_qty_cases ⟨("P"), [(colTotal, .num 7), (colPkgQty, .num 2)]⟩ (.num 7)
    (by decide)).2.2.2.1 7 2 rfl (by decide) (by decide)

/-- C8: `QTY(pn)` returns `None` (and no exception — the `IndexError` of
the empty selection is caught) exactly when this BOM's own table has no
row matching `pn`; when it returns a value, that value is the `QTY` of a
row of this very table whose `PN` is `pn` — never data from any other
assembly's table. -/
theorem QTY_lookup_spec (df : List PRow) (pn : String) :
    (QTY df pn = none ↔ ∀ r ∈ df, r.PN ≠ pn)
    ∧ (∀ v, QTY df pn = some v → ∃ r ∈ df, r.PN = pn ∧ r.QTY = v) := by
  constructor
  · unfold QTY
    simp only [Option.map_eq_none', List.find?_eq_none, beq_iff_eq]
  · intro v hv
    unfold QTY at hv
    cases hf : df.find? (fun r => r.PN == pn) with
    | none =>
      rw [hf] at hv
      exact absurd hv (by simp)
    | some r =>
      rw [hf] at hv
      simp only [Option.map_some'] at hv
      injection hv with hv2
      refine ⟨r, List.mem_of_find?_eq_some hf, ?_, hv2⟩
      have := List.find?_some hf
      simpa using this

/-- Witness for C8: an unknown part number yields the null signal. -/
theorem QTY_lookup_spec_witness :
    QTY ([⟨"P1", 2⟩]) ("NONEXISTENT") = none :=
  (QTY_lookup_spec ([⟨"P1", 2⟩]) ("NONEXISTENT")).1.mpr (by decide)

/-- C10 counterexample: on a non-root assembly that has at least one part,
`summary` raises `AttributeError` on a `str` — the counter keys are plain
part-number strings and `k.PN` fails on them — not an attribute access on
`None` as the claim states (that one only happens when the aggregate is
empty and `self.parts_db.df` is reached). -/
theorem summary_nonroot_cx :
    summary none (.mk ("A") ([⟨"P", 1⟩]) ([.inl ("P")])) = .error .attributeStr
    ∧ PyErr.attributeStr ≠ PyErr.attributeNone := by
  constructor
  · have hagg : aggregate (.mk ("A") ([⟨"P", 1⟩]) ([.inl ("P")])) = some ([("P", 1)]) := by
      simp [aggregate, aggAssems, aggParts, cUpdate, QTY]
    unfold summary
    rw [hagg]
  · decide

/-- C10 amended: `summary` on a node without an attached parts database
(every non-root assembly — `parse_parent_child` attaches the database to
the root alone) never returns a table: it raises `AttributeError` on the
counter's string keys (`k.PN`) when the aggregate is non-empty, raises
`AttributeError` on `None` (`self.parts_db.df`) when the aggregate is
empty, and propagates the aggregate's own `TypeError` when that fails
first. -/
theorem summary_nonroot_errors (t : BTree) :
    (∀ df, summary none t ≠ .ok df)
    ∧ (aggregate t = some [] → summary none t = .error .attributeNone)
    ∧ (∀ x c, aggregate t = some (x :: c) → summary none t = .error .attributeStr)
    ∧ (aggregate t = none → summary none t = .error .typeError) := by
  refine ⟨?_, ?_, ?_, ?_⟩
  · intro df hdf
    unfold summary at hdf
    cases hagg : aggregate t with
    | none =>
      rw [hagg] at hdf
      exact absurd hdf (by simp)
    | some c =>
      rw [hagg] at hdf
      cases c with
      | nil => exact absurd hdf (by simp)
      | cons x rest => exact absurd hdf (by simp)
  · intro hagg
    unfold summary
    rw [hagg]
  · intro x c hagg
    unfold summary
    rw [hagg]
  · intro hagg
    unfold summary
    rw [hagg]

/-- Witness for C10 amended at a non-root assembly holding one part. -/
theorem summary_nonroot_errors_witness :
    summary none (.mk ("B") ([⟨"P2", 4⟩]) ([.inl ("P2")])) = .error .attributeStr :=
  (summary_nonroot_errors (.mk ("B") ([⟨"P2", 4⟩]) ([.inl ("P2")]))).2.2.1 (("P2"), 4) []
    (by simp [aggregate, aggAssems, aggParts, cUpdate, QTY])

/-- C2: `aggregate` is multiplicative across nesting and merges by keyed
sum. For a root `R` with direct sub-assembly `S` used with quantity `q`
(`QTY` of `S.PN` in `R`'s table), where `S` directly contains part `P`
with quantity `p` and `P` has no other placement anywhere in the tree:
if `P` is not a direct part of `R`, `aggregate(R)[P] = p * q`; if `P` is
additionally a direct part of `R` with quantity `r`, `aggregate(R)[P] =
r + p * q` — contributions arriving via independent paths are summed by
key, never overwritten. The third conjunct transports the count through
the root's `PartsDB` rekeying: the entry keyed by the unique `Item` of
`P` carries the same count. -/
theorem aggregate_multiplicative
    (rpn spn P : String) (rdf sdf : List PRow)
    (chPre chPost sch : List (String ⊕ BTree)) (q p : Int)
    (cR : List (String × Int))
    (hagg : aggregate (.mk rpn rdf (chPre ++ Sum.inr (BTree.mk spn sdf sch) :: chPost)) = some cR)
    (hq : QTY rdf spn = some q)
    (hp : QTY sdf P = some p)
    (hS1 : countPart sch P = 1)
    (hS2 : ∀ t ∈ subTrees sch, placements P t = 0)
    (hPre : ∀ t ∈ subTrees chPre, placements P t = 0)
    (hPost : ∀ t ∈ subTrees chPost, placements P t = 0) :
    (countPart (chPre ++ Sum.inr (BTree.mk spn sdf sch) :: chPost) P = 0 →
      cGet cR P = p * q)
    ∧ (∀ r, countPart (chPre ++ Sum.inr (BTree.mk spn sdf sch) :: chPost) P = 1 →
        QTY rdf P = some r → cGet cR P = r + p * q)
    ∧ (∀ db, P ∈ db → dGet (rekey db cR) (some P) = some (cGet cR P)) := by
  have haggR := hagg
  rw [aggregate_mk] at hagg
  cases hpp : aggParts rdf (chPre ++ Sum.inr (BTree.mk spn sdf sch) :: chPost) [] with
  | none =>
    rw [hpp] at hagg
    exact absurd hagg (by simp)
  | some c1 =>
    simp only [hpp] at hagg
    rw [aggAssems_append] at hagg
    cases hc2 : aggAssems rdf chPre c1 with
    | none =>
      rw [hc2] at hagg
      exact absurd hagg (by simp)
    | some c2 =>
      rw [hc2] at hagg
      have hagg2 : aggAssems rdf (Sum.inr (BTree.mk spn sdf sch) :: chPost) c2 = some cR := hagg
      rw [aggAssems_inr] at hagg2
      cases haggS : aggregate (BTree.mk spn sdf sch) with
      | none =>
        rw [haggS] at hagg2
        exact absurd hagg2 (by simp)
      | some cS =>
        simp only [haggS] at hagg2
        have hSparts : ∃ d1, aggParts sdf sch [] = some d1 ∧ aggAssems sdf sch d1 = some cS := by
          have h0 := haggS
          rw [aggregate_mk] at h0
          cases hd1 : aggParts sdf sch [] with
          | none =>
            rw [hd1] at h0
            exact absurd h0 (by simp)
          | some d1 =>
            simp only [hd1] at h0
            exact ⟨d1, rfl, h0⟩
        obtain ⟨d1, hd1, hdS⟩ := hSparts
        have hPd1 : P ∈ keysOf d1 := aggParts_key_mem sdf P sch [] d1 hd1 (by omega)
        have hPcS : P ∈ keysOf cS := aggAssems_keys_mono sdf P sch d1 cS hdS hPd1
        have hcSne : ¬ (cS.isEmpty = true) := by
          cases cS with
          | nil => simp [keysOf] at hPcS
          | cons a l => simp
        rw [if_neg hcSne] at hagg2
        have hPN : (BTree.mk spn sdf sch).PN = spn := rfl
        rw [hPN, hq] at hagg2
        have hagg3 : aggAssems rdf chPost (mergeMul c2 cS q) = some cR := hagg2
        have hcS : cGet cS P = p := by
          have h1 : cGet d1 P = p := by
            have h2 := aggParts_ok_cGet sdf P p hp sch [] d1 hd1
            rw [hS1] at h2
            simpa [cGet] using h2
          have h2 : cGet cS P = cGet d1 P := by
            refine aggAssems_noContrib sdf P sch d1 cS ?_ hdS
            intro t' sub' ht' hsub'
            exact aggregate_entriesSum_zero P t' sub'
              (hS2 t' ((subTrees_mem_iff sch t').2 ht')) hsub'
          rw [h2, h1]
        have hc2P : cGet c2 P = cGet c1 P := by
          refine aggAssems_noContrib rdf P chPre c1 c2 ?_ hc2
          intro t' sub' ht' hsub'
          exact aggregate_entriesSum_zero P t' sub'
            (hPre t' ((subTrees_mem_iff chPre t').2 ht')) hsub'
        have hcRP : cGet cR P = cGet c1 P + p * q := by
          have h3 : cGet cR P = cGet (mergeMul c2 cS q) P := by
            refine aggAssems_noContrib rdf P chPost (mergeMul c2 cS q) cR ?_ hagg3
            intro t' sub' ht' hsub'
            exact aggregate_entriesSum_zero P t' sub'
              (hPost t' ((subTrees_mem_iff chPost t').2 ht')) hsub'
          have hnodS : (keysOf cS).Nodup := aggregate_nodup _ cS haggS
          rw [h3, cGet_mergeMul, entriesSum_eq_cGet cS P hnodS, hcS, hc2P]
        have hPcR : P ∈ keysOf cR := by
          have h4 : P ∈ keysOf (mergeMul c2 cS q) := keysOf_mergeMul_mono_right c2 cS q P hPcS
          exact aggAssems_keys_mono rdf P chPost _ cR hagg3 h4
        have hnodR : (keysOf cR).Nodup := aggregate_nodup _ cR haggR
        refine ⟨?_, ?_, ?_⟩
        · intro hcount0
          have h5 : cGet c1 P = 0 := by
            have h6 := aggParts_ok_cGet_zero rdf P _ [] c1 hcount0 hpp
            simpa [cGet] using h6
          rw [hcRP, h5]
          ring
        · intro r hcount1 hr
          have h5 : cGet c1 P = r := by
            have h6 := aggParts_ok_cGet rdf P r hr _ [] c1 hpp
            rw [hcount1] at h6
            simpa [cGet] using h6
          rw [hcRP, h5]
        · intro db hPdb
          have hmem := mem_of_mem_keysOf cR P hPcR
          have hmem2 := rekey_known_mem db cR P (cGet cR P) hnodR hmem hPdb
          have hnodO : (keysO (rekey db cR)).Nodup := by
            unfold rekey
            exact rekey_keysO_nodup db cR [] (by simp [keysO])
          exact dGet_of_mem_nodup _ _ _ hnodO hmem2

/-- Witness for C2: `R` uses `S` twice (`q = 2`); `S` holds `P` three
times over (`p = 3`); `P` also sits directly in `R` with `r = 5`; the
aggregate count of `P` is `5 + 3 * 2 = 11`. -/
theorem aggregate_multiplicative_witness :
    aggregate (.mk ("R") ([⟨"S", 2⟩, ⟨"P", 5⟩])
        ([.inl ("P"), .inr (.mk ("S") ([⟨"P", 3⟩]) ([.inl ("P")]))])) = some ([("P", 11)])
    ∧ cGet ([("P", 11)]) ("P") = 5 + 3 * 2 := by
  have hagg : aggregate (.mk ("R") ([⟨"S", 2⟩, ⟨"P", 5⟩])
      ([.inl ("P"), .inr (.mk ("S") ([⟨"P", 3⟩]) ([.inl ("P")]))])) = some ([("P", 11)]) := by
    simp [aggregate, aggAssems, aggParts, cUpdate, QTY, mergeMul, BTree.PN]
  refine ⟨hagg, ?_⟩
  exact (aggregate_multiplicative ("R") ("S") ("P") ([⟨"S", 2⟩, ⟨"P", 5⟩]) ([⟨"P", 3⟩])
    ([.inl ("P")]) ([]) ([.inl ("P")]) 2 3 ([("P", 11)]) hagg (by decide) (by decide)
    (by decide) (by decide) (by decide) (by decide)).2.1 5 (by decide) (by decide)

/-- C4 counterexample: `summary` does not leave the canonical `PartsDB`
table unchanged — the source binds `df = self.parts_db.df` (no copy) and
assigns the three derived columns onto it in place, so after the call the
parts database's table equals the returned summary table, which differs
from its pre-call value. -/
theorem summary_mutates_partsdb_cx :
    summaryRun ([⟨("P"), []⟩]) (.mk ("R") ([⟨"P", 2⟩]) ([.inl ("P")])) =
      .ok (([⟨("P"), [(colTotal, .num 2), (colPurchase, .num 2), (colSubtotal, .nan)]⟩]),
           ([⟨("P"), [(colTotal, .num 2), (colPurchase, .num 2), (colSubtotal, .nan)]⟩]))
    ∧ ([⟨("P"), [(colTotal, .num 2), (colPurchase, .num 2), (colSubtotal, .nan)]⟩] : List PartRow)
        ≠ ([⟨("P"), []⟩]) := by
  constructor
  · have hagg : aggregate (.mk ("R") ([⟨"P", 2⟩]) ([.inl ("P")])) = some ([("P", 2)]) := by
      simp [aggregate, aggAssems, aggParts, cUpdate, QTY]
    unfold summaryRun summary
    rw [hagg]
    rfl
  · decide

/-- C4 amended: on success, `summary` returns the parts database's own
table mutated in place — the post-call `parts_db.df` is the returned
table, which is the original table with the three derived columns
`Total QTY`, `Purchase QTY`, `Subtotal` appended to every row (original
columns and row order preserved) — rather than leaving `parts_db.df`
unchanged. -/
theorem summary_appends_columns (db : List PartRow) (t : BTree) (ret post : List PartRow)
    (h : summaryRun db t = .ok (ret, post)) :
    post = ret
    ∧ List.Forall₂ (fun (orig new : PartRow) => new.PN = orig.PN
        ∧ ∃ c1 c2 c3, new.attrs = orig.attrs ++
            [(colTotal, c1), (colPurchase, c2), (colSubtotal, c3)]) db ret := by
  unfold summaryRun at h
  cases hs : summary (some db) t with
  | error e =>
    rw [hs, except_map_error] at h
    exact absurd h (by simp)
  | ok d =>
    rw [hs, except_map_ok] at h
    injection h with h2
    have hret : d = ret := congrArg Prod.fst h2
    have hpost : d = post := congrArg Prod.snd h2
    exact ⟨hpost ▸ hret ▸ rfl, hret ▸ summary_shape db t d hs⟩

/-- Witness for C4 amended, at a one-part database whose part is used
twice. -/
theorem summary_appends_columns_witness :
    List.Forall₂ (fun (orig new : PartRow) => new.PN = orig.PN
      ∧ ∃ c1 c2 c3, new.attrs = orig.attrs ++
          [(colTotal, c1), (colPurchase, c2), (colSubtotal, c3)])
      ([⟨("P"), []⟩])
      ([⟨("P"), [(colTotal, .num 2), (colPurchase, .num 2), (colSubtotal, .nan)]⟩]) := by
  have h : summaryRun ([⟨("P"), []⟩]) (.mk ("R") ([⟨"P", 2⟩]) ([.inl ("P")])) =
      .ok (([⟨("P"), [(colTotal, .num 2), (colPurchase, .num 2), (colSubtotal, .nan)]⟩]),
           ([⟨("P"), [(colTotal, .num 2), (colPurchase, .num 2), (colSubtotal, .nan)]⟩])) := by
    have hagg : aggregate (.mk ("R") ([⟨"P", 2⟩]) ([.inl ("P")])) = some ([("P", 2)]) := by
      simp [aggregate, aggAssems, aggParts, cUpdate, QTY]
    unfold summaryRun summary
    rw [hagg]
    rfl
  exact (summary_appends_columns ([⟨("P"), []⟩]) (.mk ("R") ([⟨"P", 2⟩]) ([.inl ("P")]))
    ([⟨("P"), [(colTotal, .num 2), (colPurchase, .num 2), (colSubtotal, .nan)]⟩])
    ([⟨("P"), [(colTotal, .num 2), (colPurchase, .num 2), (colSubtotal, .nan)]⟩]) h).2

/-- C5 counterexample: two sibling assemblies `A` and `B` (both children
of `Top` in a successfully resolved tree) both reference part `P` of the
parts database, yet NEITHER holds the terminal `Item`: `Top`'s table also
references `P` and `Top` is processed first, so `Top` receives the unique
`Item` and both siblings receive `ItemLink`s. The claim's "exactly one of
them holds the TerminalItem and the other holds a ReferenceNode" fails. -/
theorem sibling_links_cx :
    parse_parent_child (["P"])
        ([("Top", [⟨"A", 1⟩, ⟨"B", 1⟩, ⟨"P", 3⟩]), ("A", [⟨"P", 1⟩]), ("B", [⟨"P", 2⟩])]) =
      .ok (("Top"), ⟨[("B", "Top"), ("A", "Top")], [("P", "Top")],
        [(("Top"), [Node.subAssem ("A"), Node.subAssem ("B"), Node.item ("P")]),
         (("A"), [Node.itemLink ("P")]), (("B"), [Node.itemLink ("P")])]⟩)
    ∧ parentOf (["P"])
        ([("Top", [⟨"A", 1⟩, ⟨"B", 1⟩, ⟨"P", 3⟩]), ("A", [⟨"P", 1⟩]), ("B", [⟨"P", 2⟩])])
        ("A") = some ("Top")
    ∧ parentOf (["P"])
        ([("Top", [⟨"A", 1⟩, ⟨"B", 1⟩, ⟨"P", 3⟩]), ("A", [⟨"P", 1⟩]), ("B", [⟨"P", 2⟩])])
        ("B") = some ("Top")
    ∧ childrenOf (["P"])
        ([("Top", [⟨"A", 1⟩, ⟨"B", 1⟩, ⟨"P", 3⟩]), ("A", [⟨"P", 1⟩]), ("B", [⟨"P", 2⟩])])
        ("A") = some ([Node.itemLink ("P")])
    ∧ childrenOf (["P"])
        ([("Top", [⟨"A", 1⟩, ⟨"B", 1⟩, ⟨"P", 3⟩]), ("A", [⟨"P", 1⟩]), ("B", [⟨"P", 2⟩])])
        ("B") = some ([Node.itemLink ("P")])
    ∧ Node.item ("P") ∉ ([Node.itemLink ("P")] : List Node) := by
  decide

/-- C5 amended: the unique terminal `Item` of a database part number `P`
(not itself an assembly key) lives in the FIRST assembly, in dict
processing order, whose table references `P`; that assembly holds it
exactly once and holds no `ItemLink` for it, every later assembly holds
one `ItemLink` per `P`-row of its table (and never the `Item`), earlier
assemblies hold neither, and across the whole build exactly one `Item`
placement for `P` exists (so every `ItemLink` targets identically that
`Item`). For two sibling assemblies both referencing `P` this gives
"exactly one holds the Item, the other holds a link to it" precisely when
no earlier-processed assembly references `P` first. -/
theorem first_reference_owns_item (db : List String)
    (L1 : List (String × List PRow)) (A : String) (tA : List PRow)
    (L2 : List (String × List PRow)) (P : String) (st : St)
    (h : processAll db (L1 ++ (A, tA) :: L2) = .ok st)
    (hPdb : P ∈ db) (hPk : P ∉ (L1 ++ (A, tA) :: L2).map Prod.fst)
    (hfirst : ∀ e ∈ L1, mentions e.2 P = false)
    (hA : mentions tA P = true) :
    ∃ post1 chA post2,
      st.kids = post1 ++ [(A, chA)] ++ post2
      ∧ List.Forall₂ (fun (e : String × List PRow) (ke : String × List Node) =>
          ke.1 = e.1 ∧ ke.2.count (Node.item P) = 0
          ∧ ke.2.count (Node.itemLink P) = 0) L1 post1
      ∧ chA.count (Node.item P) = 1
      ∧ chA.count (Node.itemLink P) = 0
      ∧ List.Forall₂ (fun (e : String × List PRow) (ke : String × List Node) =>
          ke.1 = e.1 ∧ ke.2.count (Node.item P) = 0
          ∧ ke.2.count (Node.itemLink P) = mcount e.2 P) L2 post2
      ∧ itemPlacements st P = 1 := by
  unfold processAll at h
  obtain ⟨hl, post1, chA, post2, hkids, hfa1, hitem, hlink, hfa2⟩ :=
    go_first ((L1 ++ (A, tA) :: L2).map Prod.fst) db P hPk L1 A tA L2 ⟨[], [], []⟩ st h rfl
      hfirst hA
  have hkids2 : st.kids = post1 ++ [(A, chA)] ++ post2 := by simpa using hkids
  refine ⟨post1, chA, post2, hkids2, hfa1, hitem, hlink, hfa2, ?_⟩
  unfold itemPlacements
  rw [hkids2, List.map_append, List.map_append, List.sum_append, List.sum_append]
  have hz1 : (post1.map (fun e => e.2.count (Node.item P))).sum = 0 := by
    refine List.sum_eq_zero ?_
    intro x hx
    obtain ⟨ke, hke, hxe⟩ := List.mem_map.1 hx
    obtain ⟨e, _, hR⟩ := forall₂_right_mem hfa1 ke hke
    rw [← hxe]
    exact hR.2.1
  have hz2 : (post2.map (fun e => e.2.count (Node.item P))).sum = 0 := by
    refine List.sum_eq_zero ?_
    intro x hx
    obtain ⟨ke, hke, hxe⟩ := List.mem_map.1 hx
    obtain ⟨e, _, hR⟩ := forall₂_right_mem hfa2 ke hke
    rw [← hxe]
    exact hR.2.1
  rw [hz1, hz2]
  simp [hitem]

/-- Witness for C5 amended: `A` is the first (and with `B` the only)
assembly referencing `P`; `A` receives the `Item`, `B` the `ItemLink`. -/
theorem first_reference_owns_item_witness :
    processAll (["P"]) ([("Top", [⟨"A", 1⟩, ⟨"B", 1⟩]), ("A", [⟨"P", 1⟩]), ("B", [⟨"P", 2⟩])]) =
      .ok ⟨[("B", "Top"), ("A", "Top")], [("P", "A")],
        [(("Top"), [Node.subAssem ("A"), Node.subAssem ("B")]),
         (("A"), [Node.item ("P")]), (("B"), [Node.itemLink ("P")])]⟩
    ∧ ∃ post1 chA post2,
        (⟨[("B", "Top"), ("A", "Top")], [("P", "A")],
          [(("Top"), [Node.subAssem ("A"), Node.subAssem ("B")]),
           (("A"), [Node.item ("P")]), (("B"), [Node.itemLink ("P")])]⟩ : St).kids =
          post1 ++ [(("A"), chA)] ++ post2
        ∧ List.Forall₂ (fun (e : String × List PRow) (ke : String × List Node) =>
            ke.1 = e.1 ∧ ke.2.count (Node.item ("P")) = 0
            ∧ ke.2.count (Node.itemLink ("P")) = 0) ([("Top", [⟨"A", 1⟩, ⟨"B", 1⟩])]) post1
        ∧ chA.count (Node.item ("P")) = 1
        ∧ chA.count (Node.itemLink ("P")) = 0
        ∧ List.Forall₂ (fun (e : String × List PRow) (ke : String × List Node) =>
            ke.1 = e.1 ∧ ke.2.count (Node.item ("P")) = 0
            ∧ ke.2.count (Node.itemLink ("P")) = mcount e.2 ("P")) ([("B", [⟨"P", 2⟩])]) post2
        ∧ itemPlacements ⟨[("B", "Top"), ("A", "Top")], [("P", "A")],
            [(("Top"), [Node.subAssem ("A"), Node.subAssem ("B")]),
             (("A"), [Node.item ("P")]), (("B"), [Node.itemLink ("P")])]⟩ ("P") = 1 :=
  ⟨by decide,
    first_reference_owns_item (["P"]) ([("Top", [⟨"A", 1⟩, ⟨"B", 1⟩])]) ("A") ([⟨"P", 1⟩])
      ([("B", [⟨"P", 2⟩])]) ("P")
      ⟨[("B", "Top"), ("A", "Top")], [("P", "A")],
        [(("Top"), [Node.subAssem ("A"), Node.subAssem ("B")]),
         (("A"), [Node.item ("P")]), (("B"), [Node.itemLink ("P")])]⟩
      (by decide) (by decide) (by decide) (by decide) (by decide)⟩

/-- C9: with a parts database attached, `aggregate` rekeys the counter
through `PartsDB.get` (first conjunct). Every key of the rekeyed dict is
either `None` or the unique `Item` of a database part number (second
conjunct); every aggregated part number absent from the database lands on
the single key `None`, where colliding entries are overwritten, not
summed — the value stored under `None` is exactly the LAST unknown entry
of the counter (third conjunct); part numbers present in the database are
keyed by their `Item` (modelled `some pn`) with their count preserved
(fourth conjunct). -/
theorem aggregate_rekey_spec (db : List String) (t : BTree) (c : List (String × Int))
    (hagg : aggregate t = some c) :
    aggregateDB db t = some (rekey db c)
    ∧ (∀ e ∈ rekey db c, e.1 = none ∨ ∃ pn, pn ∈ db ∧ e.1 = some pn)
    ∧ dGet (rekey db c) none = ((unknowns db c).getLast?).map Prod.snd
    ∧ (∀ k v, (k, v) ∈ c → k ∈ db →
        (some k, v) ∈ rekey db c ∧ dGet (rekey db c) (some k) = some v) := by
  refine ⟨?_, ?_, ?_, ?_⟩
  · unfold aggregateDB
    rw [hagg]
    rfl
  · intro e he
    exact rekey_keys_shape db c [] (by simp) e he
  · unfold rekey
    rw [rekey_dGet_none db c []]
    cases (unknowns db c).getLast? <;> simp [dGet]
  · intro k v hm hk
    have hnd : (keysOf c).Nodup := aggregate_nodup t c hagg
    have hmem := rekey_known_mem db c k v hnd hm hk
    have hnodO : (keysO (rekey db c)).Nodup := by
      unfold rekey
      exact rekey_keysO_nodup db c [] (by simp [keysO])
    exact ⟨hmem, dGet_of_mem_nodup _ _ _ hnodO hmem⟩

/-- Witness for C9: two unknown part numbers `U1` (count 1) and `U2`
(count 2) collide on the `None` key — only the later one's count, 2,
survives — while the known part `K` keeps its count under its `Item`. -/
theorem aggregate_rekey_spec_witness :
    aggregate (.mk ("A") ([⟨"U1", 1⟩, ⟨"U2", 2⟩, ⟨"K", 3⟩])
        ([.inl ("U1"), .inl ("U2"), .inl ("K")])) =
      some ([("U1", 1), ("U2", 2), ("K", 3)])
    ∧ dGet (rekey (["K"]) ([("U1", 1), ("U2", 2), ("K", 3)])) none = some 2
    ∧ dGet (rekey (["K"]) ([("U1", 1), ("U2", 2), ("K", 3)])) (some ("K")) = some 3 := by
  have hagg : aggregate (.mk ("A") ([⟨"U1", 1⟩, ⟨"U2", 2⟩, ⟨"K", 3⟩])
      ([.inl ("U1"), .inl ("U2"), .inl ("K")])) =
      some ([("U1", 1), ("U2", 2), ("K", 3)]) := by
    simp [aggregate, aggAssems, aggParts, cUpdate, QTY]
  have h := aggregate_rekey_spec (["K"]) (.mk ("A") ([⟨"U1", 1⟩, ⟨"U2", 2⟩, ⟨"K", 3⟩])
    ([.inl ("U1"), .inl ("U2"), .inl ("K")])) ([("U1", 1), ("U2", 2), ("K", 3)]) hagg
  refine ⟨hagg, ?_, (h.2.2.2 ("K") 3 (by decide) (by decide)).2⟩
  rw [h.2.2.1]
  decide

end PyBOM
